import Mathlib

/-!
# jpeg2theora and theora2jpeg

A shallow embedding of the two converters of the repository:

* `jpeg2theora.cpp` turns numbered JPEG files into an Ogg/Theora file;
* `theora2jpeg.cpp` turns an Ogg/Theora file into numbered JPEG files.

Both programs are sequences of calls into libogg, libtheora and turbojpeg.
The libraries are not part of the repository.  Their state is embedded as
plain data, and everything the tools do not control (how many packets libogg
puts on a page, whether an allocation fails, which packets the codec returns)
is an explicit parameter of the model, so the theorems hold for every such
behaviour of the libraries.  What the libraries do in every case is part of
the model: libogg forces pages once it was given the end-of-stream packet and
for the first page of a stream, clears a stream state whose storage it cannot
grow, and leaves a mark in the packet queue where a page is missing, at which
`ogg_stream_packetout` returns -1; libtheora flags the last packet of the
closing call as the end of the stream.

The globals of each program (`os`, `og`, `op`, `ctx`, `out`, ...) are the
fields of one `State` record that is threaded through the functions.  A C++
exception ends the run and keeps what was written so far: `Run.thrown`.
-/

/-- An Ogg packet, as both tools handle it: opaque bytes, the end-of-stream
flag and the granule position. -/
structure ogg_packet where
  packet : List Nat
  e_o_s : Bool
  granulepos : Int
  deriving DecidableEq, Repr

/-- An Ogg page: the serial number of its logical stream, the
beginning-of-stream flag, and the packets carried by its header and body. -/
structure ogg_page where
  serialno : Int
  bos : Bool
  packets : List ogg_packet
  deriving DecidableEq, Repr

/-- Outcome of a run (or of a part of it): normal completion, a C++ exception
with its `what()` text, or a loop of the model that ran out of fuel.  Each
outcome carries the state of the globals at that point. -/
inductive Run (σ : Type) where
  | ok (st : σ)
  | thrown (what : String) (st : σ)
  | nofuel (st : σ)
  deriving DecidableEq, Repr

/-- Error code of libtheora for a null argument (`theora/codec.h`). -/
def TH_EFAULT : Int := -1

/-- The packets carried by a list of pages, in order. -/
def packetsOf (ps : List ogg_page) : List ogg_packet := ps.flatMap ogg_page.packets

namespace jpeg2theora

/-- Stream state of libogg on the multiplexing side.  `body_data` is false for
the zero-initialised global and true after `ogg_stream_init`; `queue` holds the
packets submitted and not yet put on a page; `b_o_s` is set once the first
page was produced, `e_o_s` once a packet flagged end-of-stream was submitted. -/
structure ogg_stream_state where
  body_data : Bool
  serialno : Int
  queue : List ogg_packet
  b_o_s : Bool
  e_o_s : Bool
  packetno : Nat
  deriving DecidableEq, Repr

/-- What libogg decides on its own: how many buffered packets the next page of
`ogg_stream_pageout` takes when the page is not forced (0: not enough data for
a page), how many a forced page takes (at least one is taken), and whether a
packet submission fails (storage cannot be grown). -/
structure OggPolicy where
  pageoutCount : ogg_stream_state → Nat
  flushCount : ogg_stream_state → Nat
  packetinFails : ogg_stream_state → ogg_packet → Bool

/-- The zero-initialised global `os`. -/
def os0 : ogg_stream_state := ⟨false, 0, [], false, false, 0⟩

/-- The default-constructed global `og`. -/
def og0 : ogg_page := ⟨0, false, []⟩

/-- The zero-initialised global `op`. -/
def op0 : ogg_packet := ⟨[], false, 0⟩

/-- Library call `ogg_stream_init(&os, serialno)`. -/
def ogg_stream_init (serialno : Int) : ogg_stream_state :=
  ⟨true, serialno, [], false, false, 0⟩

/-- Library call `ogg_stream_packetin(&os, &op)`: the return value and the new
stream state.  It fails (-1) on a stream state that is not initialised.  When
the storage cannot be grown (the policy says so) libogg clears the stream
state (`ogg_stream_clear`) and returns -1: the buffered packets are gone and
every later call on the stream state fails or returns 0. -/
def ogg_stream_packetin (pol : OggPolicy) (os : ogg_stream_state) (op : ogg_packet) :
    Int × ogg_stream_state :=
  if os.body_data = false then (-1, os)
  else if pol.packetinFails os op = true then (-1, os0)
  else (0, { os with queue := os.queue ++ [op], e_o_s := os.e_o_s || op.e_o_s,
                     packetno := os.packetno + 1 })

/-- The page made of the first `n` buffered packets, and the state without them. -/
def takePage (os : ogg_stream_state) (n : Nat) : ogg_page × ogg_stream_state :=
  (⟨os.serialno, !os.b_o_s, os.queue.take n⟩,
   { os with queue := os.queue.drop n, b_o_s := true })

/-- Number of buffered packets that a forced page takes: the first page of a
stream carries the first packet only, a later one at least one packet. -/
def forcedCount (pol : OggPolicy) (os : ogg_stream_state) : Nat :=
  if os.b_o_s = false then 1 else min (max 1 (pol.flushCount os)) os.queue.length

/-- Library call `ogg_stream_flush(&os, &og)`: `none` is return value 0 (no
page), `some (og, os)` is a non-zero return with the page stored in `og`.  A
page is produced whenever a packet is buffered. -/
def ogg_stream_flush (pol : OggPolicy) (os : ogg_stream_state) :
    Option (ogg_page × ogg_stream_state) :=
  if os.body_data = false ∨ os.queue = [] then none
  else some (takePage os (forcedCount pol os))

/-- Library call `ogg_stream_pageout(&os, &og)`.  The page is forced, as in
`ogg_stream_flush`, once a packet flagged end-of-stream was submitted and
while no page was produced yet; otherwise libogg produces a page only when it
has enough data. -/
def ogg_stream_pageout (pol : OggPolicy) (os : ogg_stream_state) :
    Option (ogg_page × ogg_stream_state) :=
  if os.body_data = false ∨ os.queue = [] then none
  else if os.e_o_s = true ∨ os.b_o_s = false then some (takePage os (forcedCount pol os))
  else if min (pol.pageoutCount os) os.queue.length = 0 then none
  else some (takePage os (min (pol.pageoutCount os) os.queue.length))

/-- The encoder context of libtheora, as a script of what it will return:
`headers` are the results (return value and packet) of the coming calls of
`th_encode_flushheader`, `frames` the results of the `th_encode_packetout`
calls that follow each coming `th_encode_ycbcr_in`, `pending` those of the
current frame.  An exhausted script returns 0.  `received` lists the frame
buffers the context was given by `th_encode_ycbcr_in`, each as the index of
the image that was in the buffer. -/
structure th_enc_ctx where
  headers : List (Int × ogg_packet)
  frames : List (List (Int × ogg_packet))
  pending : List (Int × ogg_packet)
  received : List (Option Nat)
  deriving DecidableEq, Repr

/-- Library call `th_encode_flushheader(ctx, &comments, &op)`: return value,
new content of `op`, new context. -/
def th_encode_flushheader (ctx : Option th_enc_ctx) (op : ogg_packet) :
    Int × ogg_packet × Option th_enc_ctx :=
  match ctx with
  | none => (TH_EFAULT, op, none)
  | some c =>
    match c.headers with
    | [] => (0, op, some c)
    | (rv, p) :: rest => (rv, if rv > 0 then p else op, some { c with headers := rest })

/-- Library call `th_encode_ycbcr_in(ctx, buff)`, where `buff` holds the image
`img`: the context takes the frame and prepares its packets.  On a null
context nothing is taken (the call returns `TH_EFAULT`); the return value is
not used by the tool. -/
def th_encode_ycbcr_in (ctx : Option th_enc_ctx) (img : Option Nat) : Option th_enc_ctx :=
  match ctx with
  | none => none
  | some c =>
    match c.frames with
    | [] => some { c with pending := [], received := c.received ++ [img] }
    | s :: rest => some { c with frames := rest, pending := s, received := c.received ++ [img] }

/-- Library call `th_encode_packetout(ctx, last, &op)`: return value, new
content of `op`, new context.  A positive return value is one more than the
number of packets still queued for the frame; libtheora flags the packet as
end-of-stream when `last` is set and no packet is queued behind it. -/
def th_encode_packetout (ctx : Option th_enc_ctx) (last : Bool) (op : ogg_packet) :
    Int × ogg_packet × Option th_enc_ctx :=
  match ctx with
  | none => (TH_EFAULT, op, none)
  | some c =>
    match c.pending with
    | [] => (0, op, some c)
    | (rv, p) :: rest =>
      (rv, if rv > 0 then { p with e_o_s := last && decide (rv = 1) } else op,
       some { c with pending := rest })

/-- What `tjDecompressHeader3` stores for one input file. -/
structure Jpeg where
  w : Int
  h : Int
  subs : Int
  cspace : Int
  deriving DecidableEq, Repr

/-- The fields of `th_info` the tool sets. -/
structure th_info where
  frame_width : Int
  frame_height : Int
  pic_width : Int
  pic_height : Int
  pic_x : Int
  pic_y : Int
  fps_numerator : Int
  fps_denominator : Int
  colorspace : Int
  pixel_fmt : Int
  target_bitrate : Int
  quality : Int
  deriving DecidableEq, Repr

/-- The globals and the locals of `main` that outlive one loop iteration, with
the observable effects of the run: `out` are the pages written to the output
file, `sent` the packets accepted by `ogg_stream_packetin`, `buff` the index of
the image whose planes are in the frame buffer, `progress` the numbers
printed, `failed` the output at the moment `ogg_stream_packetin` first
returned a negative value, `flushed` the pages that `ogg_stream_flush`
returned in the last loop of `main`. -/
structure State where
  ctx : Option th_enc_ctx
  os : ogg_stream_state
  og : ogg_page
  op : ogg_packet
  out : List ogg_page
  i : Nat
  w : Int
  h : Int
  subs : Int
  cspace : Int
  tinfo : Option th_info
  buff : Option Nat
  sent : List ogg_packet
  progress : List Nat
  failed : Option (List ogg_page)
  flushed : List ogg_page
  deriving DecidableEq, Repr

/-- The frame buffers a codec context has received through
`th_encode_ycbcr_in`; nothing when there is no context. -/
def received (ctx : Option th_enc_ctx) : List (Option Nat) :=
  match ctx with
  | none => []
  | some c => c.received

/-- The frame buffers handed to the codec so far: what the codec context of
the run has received. -/
def State.encoded (st : State) : List (Option Nat) := received st.ctx

/-- Function `pageoutLoop`: write every page `ogg_stream_pageout` returns.
Each page takes at least one packet out of the queue, so `n` iterations are
enough when `n` is the length of the queue. -/
def pageoutLoopN (pol : OggPolicy) : Nat → State → State
  | 0, st => st
  | n + 1, st =>
    match ogg_stream_pageout pol st.os with
    | none => st
    | some (pg, os) =>
      let st := { st with os := os, og := pg }
      pageoutLoopN pol n { st with out := st.out ++ [st.og] }

/-- Function `pageoutLoop`. -/
def pageoutLoop (pol : OggPolicy) (st : State) : State :=
  pageoutLoopN pol st.os.queue.length st

/-- Function `flush`: write every page `ogg_stream_flush` returns. -/
def flushN (pol : OggPolicy) : Nat → State → State
  | 0, st => st
  | n + 1, st =>
    match ogg_stream_flush pol st.os with
    | none => st
    | some (pg, os) =>
      let st := { st with os := os, og := pg }
      flushN pol n { st with out := st.out ++ [st.og] }

/-- Function `flush`. -/
def flush (pol : OggPolicy) (st : State) : State :=
  flushN pol st.os.queue.length st

/-- The last loop of `main` (lines 264-269): `ogg_stream_flush` stores a page
in `og`, then `pageoutLoop` is called, which writes only the pages it gets
itself from `ogg_stream_pageout`. -/
def finalFlushN (pol : OggPolicy) : Nat → State → State
  | 0, st => st
  | n + 1, st =>
    match ogg_stream_flush pol st.os with
    | none => st
    | some (pg, os) =>
      finalFlushN pol n
        (pageoutLoop pol { st with os := os, og := pg, flushed := st.flushed ++ [pg] })

/-- The last loop of `main`. -/
def finalFlush (pol : OggPolicy) (st : State) : State :=
  finalFlushN pol st.os.queue.length st

/-- The field `failed` after a call that has returned a negative value: the
output at the first such call of the run. -/
def markFailed (st : State) : Option (List ogg_page) :=
  match st.failed with
  | none => some st.out
  | some o => some o

/-- Perform `ogg_stream_packetin(&os, &op)` on the globals: the return value
and the new state.  An accepted packet is recorded in `sent`, the first
negative return value in `failed`. -/
def packetin (pol : OggPolicy) (st : State) : Int × State :=
  let r := ogg_stream_packetin pol st.os st.op
  (r.1, { st with os := r.2, sent := if r.1 < 0 then st.sent else st.sent ++ [st.op],
                  failed := if r.1 < 0 then markFailed st else st.failed })

/-- Function `outputHeader1`: initialise the stream with serial number 1,
submit the first header packet and flush.  No return value is looked at. -/
def outputHeader1 (pol : OggPolicy) (st : State) : State :=
  let st := { st with os := ogg_stream_init 1 }
  let r := th_encode_flushheader st.ctx st.op
  let st := { st with op := r.2.1, ctx := r.2.2 }
  let st := (packetin pol st).2
  flush pol st

/-- The loop of `outputHeader2`: submit the header packets that are left.  The
return value of `ogg_stream_packetin` is not looked at. -/
def outputHeader2N (pol : OggPolicy) : Nat → State → Run State
  | 0, st => .nofuel st
  | n + 1, st =>
    let r := th_encode_flushheader st.ctx st.op
    let st := { st with op := r.2.1, ctx := r.2.2 }
    if r.1 = 0 then .ok st
    else if r.1 < 0 then .thrown "Error" st
    else outputHeader2N pol n (packetin pol st).2

/-- Number of scripted results left for `th_encode_flushheader`. -/
def headersLeft (ctx : Option th_enc_ctx) : Nat :=
  match ctx with
  | none => 0
  | some c => c.headers.length

/-- Number of scripted results left for `th_encode_packetout`. -/
def pendingLeft (ctx : Option th_enc_ctx) : Nat :=
  match ctx with
  | none => 0
  | some c => c.pending.length

/-- Function `outputHeader2`: the loop, then `flush`. -/
def outputHeader2 (pol : OggPolicy) (st : State) : Run State :=
  match outputHeader2N pol (headersLeft st.ctx + 1) st with
  | .ok st => .ok (flush pol st)
  | r => r

/-- The packet loop of `main` (lines 229-239 with `last = false`, lines 252-262
with `last = true`): take the packets of the codec, submit each one and write
the pages that are ready. -/
def packetLoopN (pol : OggPolicy) (last : Bool) : Nat → State → Run State
  | 0, st => .nofuel st
  | n + 1, st =>
    let r := th_encode_packetout st.ctx last st.op
    let st := { st with op := r.2.1, ctx := r.2.2 }
    if r.1 < 0 then .thrown "packetout" st
    else if r.1 = 0 then .ok st
    else
      let q := packetin pol st
      if q.1 < 0 then .thrown "packetin" q.2
      else packetLoopN pol last n (pageoutLoop pol q.2)

/-- The packet loop of `main`. -/
def packetLoop (pol : OggPolicy) (last : Bool) (st : State) : Run State :=
  packetLoopN pol last (pendingLeft st.ctx + 1) st

/-- Chroma subsampling constants of turbojpeg (`turbojpeg.h`). -/
def TJSAMP_444 : Int := 0

/-- Chroma subsampling constants of turbojpeg (`turbojpeg.h`). -/
def TJSAMP_422 : Int := 1

/-- Chroma subsampling constants of turbojpeg (`turbojpeg.h`). -/
def TJSAMP_420 : Int := 2

/-- Pixel format constants of libtheora (`theora/codec.h`). -/
def TH_PF_420 : Int := 0

/-- Pixel format constants of libtheora (`theora/codec.h`). -/
def TH_PF_422 : Int := 2

/-- Pixel format constants of libtheora (`theora/codec.h`). -/
def TH_PF_444 : Int := 3

/-- Colour space constant of libtheora (`theora/codec.h`). -/
def TH_CS_ITU_REC_470M : Int := 1

/-- A value of C type `int` (32 bits, two's complement) from a mathematical
integer. -/
def toInt32 (x : Int) : Int := (x + 2 ^ 31) % 2 ^ 32 - 2 ^ 31

/-- The expression `(x+15)&~0xf` on C `int`. -/
def roundUp16 (x : Int) : Int := Int.land (toInt32 (x + 15)) (~~~(0xf : Int))

/-- The `switch(subs)` of `main`: the Theora pixel format of a turbojpeg
subsampling, `none` for the `default:` branch. -/
def pixelFormat (subs : Int) : Option Int :=
  if subs = TJSAMP_444 then some TH_PF_444
  else if subs = TJSAMP_422 then some TH_PF_422
  else if subs = TJSAMP_420 then some TH_PF_420
  else none

/-- Everything of a run that comes from outside the program: the command
line (`fps`, `outfile`), the file system (`outGood`: the output file can be opened;
`files`: the input file of each index, `none` or past the end when it cannot
be opened), the result of `snprintf` for each index with the size of its
buffer, and the two libraries. -/
structure Env where
  fps : Int
  outfile : String
  outGood : Bool
  pstr_size : Nat
  snprintf : Nat → Int
  files : List (Option Jpeg)
  th_encode_alloc : th_info → Option th_enc_ctx
  pol : OggPolicy

/-- The input file of index `i`, if it can be opened. -/
def Env.file (env : Env) (i : Nat) : Option Jpeg := (env.files.get? i).join

/-- The `th_info` that `main` fills in for the first frame (lines 184-197). -/
def mkInfo (fps w h thpixf : Int) : th_info :=
  { frame_width := roundUp16 w
    frame_height := roundUp16 h
    pic_width := w
    pic_height := h
    pic_x := 0
    pic_y := 0
    fps_numerator := fps
    fps_denominator := 1
    colorspace := TH_CS_ITU_REC_470M
    pixel_fmt := thpixf
    target_bitrate := 0
    quality := 48 }

/-- The first-frame branch of `main` (lines 131-206): record the metadata, set
up the codec session and write the headers.  The sizing of the plane buffers
has no effect on the stream and is left out. -/
def firstFrame (env : Env) (jf : Jpeg) (st : State) : Run State :=
  let st := { st with w := jf.w, h := jf.h, subs := jf.subs, cspace := jf.cspace }
  match pixelFormat st.subs with
  | none => .thrown ("Unsupported subsampling: " ++ toString st.subs) st
  | some thpixf =>
    let tinfo := mkInfo env.fps st.w st.h thpixf
    let st := { st with tinfo := some tinfo, ctx := env.th_encode_alloc tinfo }
    if st.ctx = none then .thrown "th encode alloc" st
    else outputHeader2 env.pol (outputHeader1 env.pol st)

/-- The metadata check of `main` for a frame (lines 130-217). -/
def checkFrame (env : Env) (jf : Jpeg) (st : State) : Run State :=
  if st.w = 0 then firstFrame env jf st
  else if st.w ≠ jf.w then .thrown "width mismatch" st
  else if st.h ≠ jf.h then .thrown "height mismatch" st
  else if st.subs ≠ jf.subs then .thrown "subsample mismatch" st
  else if st.cspace ≠ jf.cspace then .thrown "colorspace mismatch" st
  else .ok st

/-- The body of the frame loop for an input file that was opened (lines
115-242): check, decode into the frame buffer, encode, write. -/
def frame (env : Env) (idx : Nat) (jf : Jpeg) (st : State) : Run State :=
  match checkFrame env jf st with
  | .ok st =>
    let st := { st with buff := some idx }
    let st := { st with ctx := th_encode_ycbcr_in st.ctx st.buff }
    match packetLoop env.pol false st with
    | .ok st => .ok { st with progress := st.progress ++ [st.i] }
    | r => r
  | r => r

/-- The frame loop of `main` (lines 94-243). -/
def mainLoopN (env : Env) : Nat → State → Run State
  | 0, st => .nofuel st
  | n + 1, st =>
    if (env.snprintf st.i % 2 ^ 64).toNat ≥ env.pstr_size then
      .thrown "Pattern was too long" st
    else
      let idx := st.i
      let st := { st with i := st.i + 1 }
      match env.file idx with
      | none => if st.i = 1 then mainLoopN env n st else .ok st
      | some jf =>
        match frame env idx jf st with
        | .ok st => mainLoopN env n st
        | r => r

/-- The globals and locals at the start of `main`. -/
def st0 : State :=
  { ctx := none, os := os0, og := og0, op := op0, out := [], i := 0, w := 0, h := 0,
    subs := 0, cspace := 0, tinfo := none, buff := none, sent := [], progress := [],
    failed := none, flushed := [] }

/-- The end of `main` (lines 245-275): encode the frame buffer once more with
`last = true`, submit the packets, then the closing flush loop. -/
def finish (env : Env) (st : State) : Run State :=
  let st := { st with ctx := th_encode_ycbcr_in st.ctx st.buff }
  match packetLoop env.pol true st with
  | .ok st => .ok (finalFlush env.pol st)
  | r => r

/-- Function `main` of jpeg2theora; `Run.ok` is `return 0`. -/
def main (env : Env) : Run State :=
  if env.outGood = false then .thrown ("Cannot open output file " ++ env.outfile) st0
  else
    match mainLoopN env (env.files.length + 2) st0 with
    | .ok st => finish env st
    | r => r

/-- Relation `Mux st st'`: from `st` to `st'` the stream state was not
initialised again, pages were only appended to the output and packets only
appended to `sent`, and every packet accepted in between is on one of the new
pages or still buffered. -/
def Mux (st st' : State) : Prop :=
  st'.os.body_data = st.os.body_data ∧ st'.w = st.w ∧
  ∃ pp new, st'.out = st.out ++ pp ∧ st'.sent = st.sent ++ new ∧
    packetsOf pp ++ st'.os.queue = st.os.queue ++ new

/-- A packet with the one byte `n`. -/
def pkt (n : Nat) : ogg_packet := ⟨[n], false, 0⟩

/-- A libogg that makes a page once three packets are buffered, puts all
buffered packets on a page, and never fails. -/
def pagePolicy : OggPolicy :=
  { pageoutCount := fun os => if os.queue.length ≥ 3 then os.queue.length else 0
    flushCount := fun os => os.queue.length
    packetinFails := fun _ _ => false }

/-- A codec session with three header packets and one packet for each of the
first three calls of `th_encode_ycbcr_in`. -/
def demoCtx : th_enc_ctx :=
  { headers := [(1, pkt 100), (1, pkt 101), (1, pkt 102)]
    frames := [[(1, pkt 0)], [(1, pkt 1)], [(1, pkt 2)]]
    pending := []
    received := [] }

/-- A run on the input files of the given list. -/
def demoEnv (files : List (Option Jpeg)) : Env :=
  { fps := 25
    outfile := "movie.ogv"
    outGood := true
    pstr_size := 40
    snprintf := fun _ => 8
    files := files
    th_encode_alloc := fun _ => some demoCtx
    pol := pagePolicy }

/-- An image of 20 by 10 pixels with 4:2:0 subsampling. -/
def img : Jpeg := ⟨20, 10, 2, 1⟩

/-- The packets of the calls of `th_encode_flushheader` in `outputHeader2`: those
of the scripted results up to the first return value that is not positive. -/
def laterHeaders (hs : List (Int × ogg_packet)) : List ogg_packet :=
  (hs.takeWhile (fun e => decide (0 < e.1))).map Prod.snd

/-- Relation `Keep st st'`: the frame counter and the metadata of the first
frame are the same in both states. -/
def Keep (st st' : State) : Prop :=
  st'.i = st.i ∧ st'.w = st.w ∧ st'.h = st.h ∧ st'.subs = st.subs ∧ st'.cspace = st.cspace

/-- The messages of the four metadata checks, each with the condition under
which `main` throws it. -/
def Names (what : String) (first jf : Jpeg) : Prop :=
  (what = "width mismatch" ∧ jf.w ≠ first.w) ∨
  (what = "height mismatch" ∧ jf.h ≠ first.h) ∨
  (what = "subsample mismatch" ∧ jf.subs ≠ first.subs) ∨
  (what = "colorspace mismatch" ∧ jf.cspace ≠ first.cspace)

end jpeg2theora

namespace theora2jpeg

/-- Error code of libtheora for a packet that is not a Theora header
(`theora/codec.h`). -/
def TH_ENOTFORMAT : Int := -21

/-- Value of `UINT_MAX` (32-bit `unsigned`). -/
def UINT_MAX : Nat := 4294967295

/-- Stream state of libogg on the demultiplexing side: the serial number it
was initialised with, what the submitted pages have left to hand out, and the
page sequence number it expects next (-1 after `ogg_stream_init`).  An entry
of `queue` is a packet, or `none`: the mark libogg puts in when a page does not
carry the sequence number it expects (data was lost).  Pages are taken to
carry complete packets. -/
structure ogg_stream_state where
  serialno : Int
  queue : List (Option ogg_packet)
  pageno : Int
  deriving DecidableEq, Repr

/-- What `ogg_sync_pageout` finds next in the sync buffer: a complete page with
the page sequence number of its header, or bytes that are no page and are
skipped (return value -1). -/
inductive SyncItem where
  | page (pg : ogg_page) (pageno : Nat)
  | junk
  deriving DecidableEq, Repr

/-- One step of the run as seen from outside: a packet handed to
`th_decode_packetin`, or the output file of an index being written. -/
inductive Event where
  | decode (p : ogg_packet)
  | write (index : Nat)
  deriving DecidableEq, Repr

/-- The globals of theora2jpeg and the locals of `main` that outlive one loop
iteration, with the observable effects of the run.  `oy` is the content of the
sync buffer, `input` the reads of the input file still to come (each read with
the items it completes in the sync buffer).  `og_pageno` is the page sequence
number in the header of the page in `og`.  `log` lists every page taken from
the sync buffer with its fate: true when it was passed to `ogg_stream_pagein`,
false when it was discarded.  `headers` and `decoded` are the packets passed
to `th_decode_headerin` and `th_decode_packetin`, `buff` is the number of the
packet whose picture is in the frame buffer. -/
structure State where
  os : Option ogg_stream_state
  oy : List SyncItem
  input : List (List SyncItem)
  og : ogg_page
  og_pageno : Nat
  op : ogg_packet
  theoraStream : Int
  log : List (ogg_page × Bool)
  stderr : List Int
  headers : List ogg_packet
  decoded : List ogg_packet
  buff : Option Nat
  framesWritten : Nat
  trace : List Event
  deriving DecidableEq, Repr

/-- Library call `ogg_sync_pageout(&oy, &og)`: return value, new `og` with its
page sequence number, new sync buffer. -/
def ogg_sync_pageout (oy : List SyncItem) (og : ogg_page) (og_pageno : Nat) :
    Int × ogg_page × Nat × List SyncItem :=
  match oy with
  | [] => (0, og, og_pageno, [])
  | SyncItem.junk :: rest => (-1, og, og_pageno, rest)
  | SyncItem.page pg n :: rest => (1, pg, n, rest)

/-- Library call `ogg_page_serialno(&og)`. -/
def ogg_page_serialno (og : ogg_page) : Int := og.serialno

/-- Library call `ogg_page_bos(&og)`. -/
def ogg_page_bos (og : ogg_page) : Bool := og.bos

/-- Library call `ogg_stream_init(os, serialno)` on a fresh stream state. -/
def ogg_stream_init (serialno : Int) : ogg_stream_state := ⟨serialno, [], -1⟩

/-- Library call `ogg_stream_pagein(os, &og)`: return value and new stream
state.  It fails (-1) for a null stream state and for a page of another serial
number.  When the page does not carry the sequence number expected (and it is
not the first page submitted), a mark for the lost data goes in front of its
packets. -/
def ogg_stream_pagein (os : Option ogg_stream_state) (og : ogg_page) (og_pageno : Nat) :
    Int × Option ogg_stream_state :=
  match os with
  | none => (-1, none)
  | some s =>
    if og.serialno ≠ s.serialno then (-1, some s)
    else
      let gap : List (Option ogg_packet) :=
        if (og_pageno : Int) ≠ s.pageno ∧ s.pageno ≠ -1 then [none] else []
      (0, some { s with queue := s.queue ++ gap ++ og.packets.map some,
                        pageno := (og_pageno : Int) + 1 })

/-- Library call `ogg_stream_packetout(os, &op)` on a non-null stream state:
return value, new `op`, new stream state.  At a mark for lost data the call
returns -1 and leaves `op` as it is. -/
def ogg_stream_packetout (s : ogg_stream_state) (op : ogg_packet) :
    Int × ogg_packet × ogg_stream_state :=
  match s.queue with
  | [] => (0, op, s)
  | none :: rest => (-1, op, { s with queue := rest })
  | some p :: rest => (1, p, { s with queue := rest })

/-- Function `readFile`: one read of up to 4096 bytes into the sync buffer;
false when nothing was read.  `ogg_sync_wrote` is taken to succeed. -/
def readFile (st : State) : Bool × State :=
  match st.input with
  | [] => (false, st)
  | chunk :: rest => (true, { st with oy := st.oy ++ chunk, input := rest })

/-- What `getPage` does with the page it has just taken into `og`: go round
the loop again (`continue`), or leave the function. -/
inductive Fate where
  | again (st : State)
  | leave (r : Run (Bool × State))

/-- Lines 276-283 of `getPage`: discard the page in `og` when its serial
number is not `theoraStream`, else submit it and return true. -/
def submitPage (sno : Int) (st : State) : Fate :=
  if sno ≠ st.theoraStream then .again { st with log := st.log ++ [(st.og, false)] }
  else
    let q := ogg_stream_pagein st.os st.og st.og_pageno
    let st := { st with os := q.2, log := st.log ++ [(st.og, true)] }
    if q.1 = -1 then .leave (.thrown "Assertion `rv != -1' failed." (false, st))
    else .leave (.ok (true, st))

/-- Lines 256-283 of `getPage`: the treatment of the page in `og`. -/
def handlePage (st : State) : Fate :=
  let sno := ogg_page_serialno st.og
  if ogg_page_bos st.og = true then
    if st.os = none then
      submitPage sno { st with os := some (ogg_stream_init sno), theoraStream := sno }
    else
      .again { st with stderr := st.stderr ++ [sno], log := st.log ++ [(st.og, false)] }
  else submitPage sno st

/-- Function `getPage`, with a bound on the number of loop iterations. -/
def getPageN : Nat → State → Run (Bool × State)
  | 0, st => .nofuel (false, st)
  | n + 1, st =>
    let r := ogg_sync_pageout st.oy st.og st.og_pageno
    let st := { st with og := r.2.1, og_pageno := r.2.2.1, oy := r.2.2.2 }
    if r.1 ≤ 0 then
      let f := readFile st
      if f.1 = false then .ok (false, f.2) else getPageN n f.2
    else if r.1 = 1 then
      match handlePage st with
      | .again st => getPageN n st
      | .leave r => r
    else getPageN n st

/-- Number of loop iterations of `getPage` that the input still allows: every
iteration takes an item out of the sync buffer or a read out of the file. -/
def inputSize (st : State) : Nat :=
  st.oy.length + (st.input.map (fun c => c.length + 1)).sum

/-- Function `getPage`. -/
def getPage (st : State) : Run (Bool × State) := getPageN (inputSize st + 1) st

/-- Function `getPacket`, with a bound on the number of loop iterations. -/
def getPacketN : Nat → State → Run (Bool × State)
  | 0, st => .nofuel (false, st)
  | n + 1, st =>
    let r : Int × State :=
      match st.os with
      | none => (0, st)
      | some s =>
        let q := ogg_stream_packetout s st.op
        (q.1, { st with op := q.2.1, os := some q.2.2 })
    if r.1 = 0 then
      match getPage r.2 with
      | .ok (false, st) => .ok (false, st)
      | .ok (true, st) => getPacketN n st
      | e => e
    else .ok (true, r.2)

/-- Function `getPacket`. -/
def getPacket (st : State) : Run (Bool × State) := getPacketN (inputSize st + 2) st

/-- The decoder of libtheora, as far as the tool looks at it: the return value
of `th_decode_headerin` and of `th_decode_packetin` for a packet, given the
packets passed before, the pixel format and picture offset of the parsed
headers, and whether `th_decode_alloc` succeeds. -/
structure Codec where
  th_decode_headerin : List ogg_packet → ogg_packet → Int
  th_decode_packetin : List ogg_packet → ogg_packet → Int
  pixel_fmt : List ogg_packet → Int
  pic_x : List ogg_packet → Int
  pic_y : List ogg_packet → Int
  th_decode_alloc : List ogg_packet → Bool

/-- Everything of a run that comes from outside the program: the name of the
input file, the optional third argument, the input file, the decoder, the result of `snprintf` for each
index with the size of its buffer, and whether the output file of an index can
be opened. -/
structure Env where
  infile : String
  maxframes : Option Int
  inGood : Bool
  input : List (List SyncItem)
  codec : Codec
  outF_size : Nat
  snprintf : Nat → Int
  outGood : Nat → Bool

/-- Function `getNextFrame`: decode the packet in `op`, then look for the next
packet; true when there is none. -/
def getNextFrame (env : Env) (st : State) : Run (Bool × State) :=
  let rv := env.codec.th_decode_packetin st.decoded st.op
  let st := { st with decoded := st.decoded ++ [st.op], trace := st.trace ++ [Event.decode st.op] }
  if rv < 0 then .thrown "Packet decode error" (false, st)
  else
    let st := if rv = 1 then st else { st with buff := some (st.decoded.length - 1) }
    match getPacket st with
    | .ok (false, st) => .ok (true, st)
    | .ok (true, st) => .ok (false, st)
    | e => e

/-- The frame loop of `main` (lines 164-198); `n` is `numFrames - framesWritten`. -/
def frameLoop (env : Env) : Nat → State → Run State
  | 0, st => .ok st
  | n + 1, st =>
    match getNextFrame env st with
    | .ok (last, st) =>
      if (env.snprintf st.framesWritten % 2 ^ 64).toNat ≥ env.outF_size then
        .thrown "Filename overflow" st
      else if env.outGood st.framesWritten = false then
        .thrown "Cannot open output file" st
      else
        let st := { st with trace := st.trace ++ [Event.write st.framesWritten] }
        let st := { st with framesWritten := st.framesWritten + 1 }
        if last = true then .ok st else frameLoop env n st
    | .thrown what (_, st) => .thrown what st
    | .nofuel (_, st) => .nofuel st

/-- The header loop of `main` (lines 99-126), with a bound on the number of
iterations. -/
def headerLoopN (env : Env) : Nat → State → Run State
  | 0, st => .nofuel st
  | n + 1, st =>
    match getPacket st with
    | .ok (false, st) => .thrown ("Could not get packet for setup for " ++ env.infile) st
    | .ok (true, st) =>
      let rv := env.codec.th_decode_headerin st.headers st.op
      let st := { st with headers := st.headers ++ [st.op] }
      if rv = TH_ENOTFORMAT then headerLoopN env n st
      else if rv < 0 then .thrown ("th_decode_headerin error: " ++ toString rv) st
      else if rv = 0 then .ok st
      else
        if st.theoraStream = -1 then
          headerLoopN env n { st with theoraStream := ogg_page_serialno st.og }
        else headerLoopN env n st
    | .thrown what (_, st) => .thrown what st
    | .nofuel (_, st) => .nofuel st

/-- Number of entries that the pages among the given items can put into the
queue of the stream state, at most: their packets and one mark for each. -/
def packetsOn (items : List SyncItem) : Nat :=
  (items.map (fun it =>
    match it with
    | SyncItem.page pg _ => pg.packets.length + 1
    | SyncItem.junk => 0)).sum

/-- Number of entries in the queue of the stream state. -/
def queued (st : State) : Nat :=
  match st.os with
  | none => 0
  | some s => s.queue.length

/-- Number of times `getPacket` can still return true, at most. -/
def packetBound (st : State) : Nat :=
  packetsOn (st.oy ++ st.input.flatten) + queued st

/-- The value of `numFrames` (lines 71-75): `atoi` of the third argument
converted to `unsigned`, or `UINT_MAX`. -/
def numFrames (env : Env) : Nat :=
  match env.maxframes with
  | some k => (k % 2 ^ 32).toNat
  | none => UINT_MAX

/-- Turbojpeg subsampling of a Theora pixel format (lines 137-146): 444 is 3,
422 is 2, 420 is 0 in libtheora; `none` is the `default:` branch. -/
def subsampling (pixel_fmt : Int) : Option Int :=
  if pixel_fmt = 3 then some 0
  else if pixel_fmt = 2 then some 1
  else if pixel_fmt = 0 then some 2
  else none

/-- The globals at the start of `main`. -/
def st0 (env : Env) : State :=
  { os := none, oy := [], input := env.input, og := ⟨0, false, []⟩, og_pageno := 0,
    op := ⟨[], false, 0⟩,
    theoraStream := -1, log := [], stderr := [], headers := [], decoded := [], buff := none,
    framesWritten := 0, trace := [] }

/-- Function `main` of theora2jpeg. -/
def main (env : Env) : Run State :=
  if env.inGood = false then .thrown ("Cannot open " ++ env.infile) (st0 env)
  else
    match headerLoopN env (packetBound (st0 env) + 1) (st0 env) with
    | .ok st =>
      if st.theoraStream = -1 then .thrown "No theora streams found" st
      else if env.codec.th_decode_alloc st.headers = false then .thrown "th_decode_alloc error" st
      else if subsampling (env.codec.pixel_fmt st.headers) = none then .thrown "Bad subsampling" st
      else if env.codec.pic_x st.headers ≠ 0 ∨ env.codec.pic_y st.headers ≠ 0 then
        .thrown "This decoder doesn't support pic_x or pic_y != 0" st
      else frameLoop env (numFrames env) st
    | r => r

/-- Call `getPage` again and again, at most `n` times, until it returns false. -/
def getPages : Nat → State → Run State
  | 0, st => .ok st
  | n + 1, st =>
    match getPage st with
    | .ok (true, st) => getPages n st
    | .ok (false, st) => .ok st
    | .thrown what (_, st) => .thrown what st
    | .nofuel (_, st) => .nofuel st

/-- The serial number of the stream state, when there is one. -/
def selected (st : State) : Option Int := st.os.map (fun s => s.serialno)

/-- The stream state and `theoraStream` agree on the serial number. -/
def Consistent (st : State) : Prop := ∀ s, st.os = some s → s.serialno = st.theoraStream

/-- The selection after a sequence of pages: the serial number of the first
beginning-of-stream page seen while nothing was selected. -/
def selAfter : Option Int → List ogg_page → Option Int
  | sel, [] => sel
  | none, pg :: rest => if pg.bos = true then selAfter (some pg.serialno) rest else selAfter none rest
  | some s, _ :: rest => selAfter (some s) rest

/-- The fate of every page in the words of the claim: the first
beginning-of-stream page selects its stream and is submitted; from then on a
page is submitted when its serial number is the selected one, and discarded
otherwise. -/
def fateClaimed : Option Int → List ogg_page → List (ogg_page × Bool)
  | _, [] => []
  | none, pg :: rest =>
    if pg.bos = true then (pg, true) :: fateClaimed (some pg.serialno) rest
    else (pg, false) :: fateClaimed none rest
  | some s, pg :: rest => (pg, decide (pg.serialno = s)) :: fateClaimed (some s) rest

/-- The fate of every page as amended: after the selection a page is submitted
when its serial number is the selected one and it is not a beginning-of-stream
page; every later beginning-of-stream page is discarded. -/
def fateSpec : Option Int → List ogg_page → List (ogg_page × Bool)
  | _, [] => []
  | none, pg :: rest =>
    if pg.bos = true then (pg, true) :: fateSpec (some pg.serialno) rest
    else (pg, false) :: fateSpec none rest
  | some s, pg :: rest => (pg, !pg.bos && decide (pg.serialno = s)) :: fateSpec (some s) rest

/-- The packets in the queue of the stream state, in order. -/
def queuePackets (st : State) : List ogg_packet :=
  match st.os with
  | none => []
  | some s => s.queue.filterMap id

/-- The page of an item of the sync buffer. -/
def pageOf : SyncItem → Option ogg_page
  | SyncItem.page pg _ => some pg
  | SyncItem.junk => none

/-- What the sync layer will still find: the content of the sync buffer, then
the reads to come. -/
def itemsAhead (st : State) : List SyncItem := st.oy ++ st.input.flatten

/-- The pages that the fates of `fateSpec` submit, in order. -/
def submitted (sel : Option Int) (pages : List ogg_page) : List ogg_page :=
  ((fateSpec sel pages).filter Prod.snd).map Prod.fst

/-- Relation `Grow st st'`: from `st` to `st'` the items `taken` were taken from
the sync layer; the log has grown by the pages among them, each with the fate
of `fateSpec`; the selection is the one after these pages; the queue of the
stream state has grown by the packets of the pages submitted; the stream state
and `theoraStream` agree on the serial number. -/
def Grow (st st' : State) : Prop :=
  Consistent st' ∧ ∃ taken, taken ++ itemsAhead st' = itemsAhead st ∧
    st'.log = st.log ++ fateSpec (selected st) (taken.filterMap pageOf) ∧
    selected st' = selAfter (selected st) (taken.filterMap pageOf) ∧
    queuePackets st' = queuePackets st ++ packetsOf (submitted (selected st) (taken.filterMap pageOf))

/-- An input file with two logical streams, 7 and 8; stream 7 starts first.
The pages of each stream are numbered from 0. -/
def twoStreams : List (List SyncItem) :=
  [[.page ⟨7, true, [⟨[100], false, 0⟩]⟩ 0, .page ⟨8, true, [⟨[50], false, 0⟩]⟩ 0],
   [.page ⟨8, false, [⟨[51], false, 0⟩]⟩ 1,
    .page ⟨7, false, [⟨[0], false, 0⟩, ⟨[1], false, 0⟩]⟩ 1],
   [.page ⟨7, false, [⟨[2], false, 0⟩]⟩ 2]]

/-- An input file in which a second beginning-of-stream page carries the serial
number of the first. -/
def sameSerialTwice : List (List SyncItem) :=
  [[.page ⟨7, true, [⟨[100], false, 0⟩]⟩ 0, .page ⟨7, true, [⟨[101], false, 0⟩]⟩ 1]]

/-- An input file in which page 1 of the stream is missing: page 0 with a
header packet and the first frame, then page 2 with the second frame. -/
def lostPage : List (List SyncItem) :=
  [[.page ⟨7, true, [⟨[100], false, 0⟩, ⟨[0], false, 0⟩]⟩ 0,
    .page ⟨7, false, [⟨[2], false, 0⟩]⟩ 2]]

/-- A decoder that takes packets whose first byte is 100 or more for headers
and decodes every other packet. -/
def demoCodec : Codec :=
  { th_decode_headerin := fun _ p => if 100 ≤ p.packet.headD 0 then 1 else 0
    th_decode_packetin := fun _ _ => 0
    pixel_fmt := fun _ => 0
    pic_x := fun _ => 0
    pic_y := fun _ => 0
    th_decode_alloc := fun _ => true }

/-- A run on the given input file and third argument. -/
def demoEnv (maxframes : Option Int) (input : List (List SyncItem)) : Env :=
  { infile := "movie.ogv"
    maxframes := maxframes
    inGood := true
    input := input
    codec := demoCodec
    outF_size := 40
    snprintf := fun _ => 8
    outGood := fun _ => true }

/-- The page of an item of the sync buffer, with its page sequence number. -/
def numbered : SyncItem → Option (ogg_page × Nat)
  | SyncItem.page pg n => some (pg, n)
  | SyncItem.junk => none

/-- The pages still to come, with their page sequence numbers. -/
def pagesAhead (st : State) : List (ogg_page × Nat) := (itemsAhead st).filterMap numbered

/-- The pages of a sequence that belong to the selected stream `t`: those that
`getPage` submits once the stream is selected. -/
def accepted (t : Int) (pages : List (ogg_page × Nat)) : List (ogg_page × Nat) :=
  pages.filter (fun pn => !pn.1.bos && decide (pn.1.serialno = t))

/-- The page sequence numbers are those libogg expects, one after the other,
when it expects `e` first (-1: any number). -/
def inSeq : Int → List Nat → Bool
  | _, [] => true
  | e, n :: rest => (decide ((n : Int) = e) || decide (e = -1)) && inSeq ((n : Int) + 1) rest

/-- The packets of the logical stream that an input file starts with: those of
its first page, then those of the later pages that are not beginning-of-stream
pages and carry the serial number of the first page. -/
def streamPackets (items : List SyncItem) : List ogg_packet :=
  match items with
  | SyncItem.page pg0 _ :: rest =>
    pg0.packets ++ packetsOf ((accepted pg0.serialno (rest.filterMap numbered)).map Prod.fst)
  | _ => []

/-- An input file as the tool expects it: it starts with a beginning-of-stream
page, whose serial number is not -1 (the value `theoraStream` starts with);
`ogg_sync_pageout` finds pages only; the pages of the stream of the first page
carry consecutive page sequence numbers. -/
def WellFormed (items : List SyncItem) : Prop :=
  match items with
  | SyncItem.page pg0 n0 :: rest =>
    pg0.bos = true ∧ pg0.serialno ≠ -1 ∧ SyncItem.junk ∉ rest ∧
    inSeq ((n0 : Int) + 1)
      ((accepted pg0.serialno (rest.filterMap numbered)).map Prod.snd) = true
  | _ => False

/-- The packets that `getPacket` has still to hand out: before a stream is
selected those of the stream the input starts with; afterwards those in the
queue of the stream state, then those of the pages of the stream still to
come. -/
def packetsAhead (st : State) : List ogg_packet :=
  match st.os with
  | none => streamPackets (itemsAhead st)
  | some s =>
    s.queue.filterMap id ++
      packetsOf ((accepted st.theoraStream (pagesAhead st)).map Prod.fst)

/-- Nothing was read yet and the input is as the tool expects it. -/
def Start (st : State) : Prop := st.os = none ∧ WellFormed (itemsAhead st)

/-- A stream is selected, the input still to come is a sequence of pages, and
no data of the stream is lost: no mark is in the queue and the pages of the
stream still to come carry the page sequence numbers libogg expects. -/
def Ready (st : State) : Prop :=
  (∃ s, st.os = some s ∧ s.serialno = st.theoraStream ∧ none ∉ s.queue ∧
    inSeq s.pageno ((accepted st.theoraStream (pagesAhead st)).map Prod.snd) = true) ∧
  SyncItem.junk ∉ itemsAhead st

/-- The header loop of `main` on a list of packets: the packets are passed to
`th_decode_headerin` one after the other, each with the packets passed before;
the first one for which it returns 0 is the first payload packet.  The result
is the list of the packets passed, and the payload packets: that packet and
all after it.  `none` when the list ends before or `th_decode_headerin`
returns an error. -/
def splitHeaders (codec : Codec) :
    List ogg_packet → List ogg_packet → Option (List ogg_packet × List ogg_packet)
  | _, [] => none
  | hist, p :: rest =>
    if codec.th_decode_headerin hist p = TH_ENOTFORMAT then
      splitHeaders codec (hist ++ [p]) rest
    else if codec.th_decode_headerin hist p < 0 then none
    else if codec.th_decode_headerin hist p = 0 then some (hist ++ [p], p :: rest)
    else splitHeaders codec (hist ++ [p]) rest

/-- The fields that only `main` and `getNextFrame` change are the same in both
states. -/
def SameFrame (st st' : State) : Prop :=
  st'.headers = st.headers ∧ st'.decoded = st.decoded ∧ st'.buff = st.buff ∧
  st'.framesWritten = st.framesWritten ∧ st'.trace = st.trace

/-- The events of decoding the given packets one after the other, each followed
by the writing of the output file of the next index, from index `j` on. -/
def frameEvents : Nat → List ogg_packet → List Event
  | _, [] => []
  | j, p :: rest => Event.decode p :: Event.write j :: frameEvents (j + 1) rest

/-- The indices of the output files written, in order. -/
def filesWritten (trace : List Event) : List Nat :=
  trace.filterMap (fun e =>
    match e with
    | Event.write j => some j
    | Event.decode _ => none)

/-- An input file whose first page is not a beginning-of-stream page and has
the serial number -1 (0xFFFFFFFF read as `int`); stream 7 starts after it. -/
def minusOneFirst : List (List SyncItem) :=
  [[.page ⟨-1, false, [⟨[9], false, 0⟩]⟩ 3, .page ⟨7, true, [⟨[100], false, 0⟩]⟩ 0]]

end theora2jpeg

/-! ## Theorems -/

namespace jpeg2theora

theorem packetsOf_append (a b : List ogg_page) : packetsOf (a ++ b) = packetsOf a ++ packetsOf b := by
  simp [packetsOf]

theorem packetsOf_single (pg : ogg_page) : packetsOf [pg] = pg.packets := by
  simp [packetsOf]

theorem mux_refl (st : State) : Mux st st :=
  ⟨rfl, rfl, [], [], by simp, by simp, by simp [packetsOf]⟩

theorem mux_trans {a b c : State} (h1 : Mux a b) (h2 : Mux b c) : Mux a c := by
  obtain ⟨hb1, hw1, pp1, n1, ho1, hs1, hq1⟩ := h1
  obtain ⟨hb2, hw2, pp2, n2, ho2, hs2, hq2⟩ := h2
  refine ⟨hb2.trans hb1, hw2.trans hw1, pp1 ++ pp2, n1 ++ n2, ?_, ?_, ?_⟩
  · rw [ho2, ho1, List.append_assoc]
  · rw [hs2, hs1, List.append_assoc]
  · rw [packetsOf_append, List.append_assoc, hq2, ← List.append_assoc, hq1, List.append_assoc]

/-- A page taken out of the stream state and written. -/
theorem mux_page (st : State) (n : Nat) :
    Mux st { st with os := (takePage st.os n).2, og := (takePage st.os n).1,
                     out := st.out ++ [(takePage st.os n).1] } := by
  refine ⟨rfl, rfl, [(takePage st.os n).1], [], rfl, by simp, ?_⟩
  simp [packetsOf_single, takePage]

theorem forcedCount_pos (pol : OggPolicy) (os : ogg_stream_state) (hq : os.queue ≠ []) :
    1 ≤ forcedCount pol os := by
  unfold forcedCount
  have := List.length_pos.mpr hq
  split_ifs <;> omega

/-- A page that `ogg_stream_flush` returns takes at least one packet out of an
initialised stream state. -/
theorem flush_takes (pol : OggPolicy) (os os' : ogg_stream_state) (pg : ogg_page)
    (h : ogg_stream_flush pol os = some (pg, os')) :
    os.body_data = true ∧ os.queue ≠ [] ∧
      ∃ n, 1 ≤ n ∧ pg = (takePage os n).1 ∧ os' = (takePage os n).2 := by
  unfold ogg_stream_flush at h
  split_ifs at h with hc
  simp only [Option.some.injEq] at h
  have hq : os.queue ≠ [] := fun hq => hc (Or.inr hq)
  have hb : os.body_data = true := by
    cases hbd : os.body_data
    · exact absurd (Or.inl hbd) hc
    · rfl
  exact ⟨hb, hq, _, forcedCount_pos pol os hq, by rw [h], by rw [h]⟩

/-- A page that `ogg_stream_pageout` returns takes at least one packet out of
an initialised stream state. -/
theorem pageout_takes (pol : OggPolicy) (os os' : ogg_stream_state) (pg : ogg_page)
    (h : ogg_stream_pageout pol os = some (pg, os')) :
    os.body_data = true ∧ os.queue ≠ [] ∧
      ∃ n, 1 ≤ n ∧ pg = (takePage os n).1 ∧ os' = (takePage os n).2 := by
  unfold ogg_stream_pageout at h
  split_ifs at h with hc hf hz
  · simp only [Option.some.injEq] at h
    have hq : os.queue ≠ [] := fun hq => hc (Or.inr hq)
    have hb : os.body_data = true := by
      cases hbd : os.body_data
      · exact absurd (Or.inl hbd) hc
      · rfl
    exact ⟨hb, hq, _, forcedCount_pos pol os hq, by rw [h], by rw [h]⟩
  · simp only [Option.some.injEq] at h
    have hq : os.queue ≠ [] := fun hq => hc (Or.inr hq)
    have hb : os.body_data = true := by
      cases hbd : os.body_data
      · exact absurd (Or.inl hbd) hc
      · rfl
    exact ⟨hb, hq, min (pol.pageoutCount os) os.queue.length, Nat.pos_of_ne_zero hz,
      by rw [h], by rw [h]⟩

theorem pageoutLoopN_mux (pol : OggPolicy) (n : Nat) (st : State) :
    Mux st (pageoutLoopN pol n st) := by
  induction n generalizing st with
  | zero => exact mux_refl st
  | succ n ih =>
    unfold pageoutLoopN
    cases h : ogg_stream_pageout pol st.os with
    | none => exact mux_refl st
    | some r =>
      obtain ⟨pg, os⟩ := r
      simp only
      obtain ⟨_, _, k, _, h1, h2⟩ := pageout_takes pol _ _ _ h
      subst h1 h2
      exact mux_trans (mux_page st _) (ih _)

theorem pageoutLoop_mux (pol : OggPolicy) (st : State) : Mux st (pageoutLoop pol st) :=
  pageoutLoopN_mux pol _ st

theorem flushN_mux (pol : OggPolicy) (n : Nat) (st : State) :
    Mux st (flushN pol n st) := by
  induction n generalizing st with
  | zero => exact mux_refl st
  | succ n ih =>
    unfold flushN
    cases h : ogg_stream_flush pol st.os with
    | none => exact mux_refl st
    | some r =>
      obtain ⟨pg, os⟩ := r
      simp only
      obtain ⟨_, _, k, _, h1, h2⟩ := flush_takes pol _ _ _ h
      subst h1 h2
      exact mux_trans (mux_page st _) (ih _)

theorem flushN_queue (pol : OggPolicy) (n : Nat) (st : State) (hb : st.os.body_data = true)
    (hn : st.os.queue.length ≤ n) : (flushN pol n st).os.queue = [] := by
  induction n generalizing st with
  | zero =>
    simp only [flushN]
    exact List.length_eq_zero.mp (Nat.le_zero.mp hn)
  | succ n ih =>
    unfold flushN
    cases h : ogg_stream_flush pol st.os with
    | none =>
      simp only
      unfold ogg_stream_flush at h
      split at h
      · rename_i hc
        rcases hc with hc | hc
        · rw [hb] at hc; cases hc
        · exact hc
      · cases h
    | some r =>
      obtain ⟨pg, os⟩ := r
      simp only
      obtain ⟨_, hq, k, hk, _, h2⟩ := flush_takes pol _ _ _ h
      subst h2
      apply ih
      · simp [takePage, hb]
      · have hpos : 0 < st.os.queue.length := List.length_pos.mpr hq
        simp only [takePage, List.length_drop]
        omega

theorem flush_mux (pol : OggPolicy) (st : State) : Mux st (flush pol st) := flushN_mux pol _ st

theorem flush_queue (pol : OggPolicy) (st : State) (hb : st.os.body_data = true) :
    (flush pol st).os.queue = [] := flushN_queue pol _ st hb (Nat.le_refl _)

/-- A submission that is accepted. -/
theorem packetin_mux (pol : OggPolicy) (st : State) (h : ¬ (packetin pol st).1 < 0) :
    Mux st (packetin pol st).2 := by
  unfold packetin ogg_stream_packetin at h ⊢
  split_ifs at h ⊢ with h1 h2
  · exact (h (by simp)).elim
  · exact (h (by simp)).elim
  · refine ⟨rfl, rfl, [], [st.op], by simp, by simp, by simp [packetsOf]⟩

theorem file_mem (env : Env) (i : Nat) (jf : Jpeg) (h : env.file i = some jf) :
    some jf ∈ env.files := by
  unfold Env.file at h
  cases hg : env.files.get? i with
  | none =>
    rw [hg] at h
    cases h
  | some o =>
    rw [hg] at h
    simp only [Option.join] at h
    subst h
    exact List.get?_mem hg

theorem mux_same {st st' : State} (h1 : st'.os = st.os) (h2 : st'.out = st.out)
    (h3 : st'.sent = st.sent) (h4 : st'.w = st.w) : Mux st st' :=
  ⟨by rw [h1], h4, [], [], by simp [h2], by simp [h3], by simp [packetsOf, h1]⟩

theorem packetLoopN_mux (pol : OggPolicy) (last : Bool) (n : Nat) (st st' : State)
    (h : packetLoopN pol last n st = Run.ok st') : Mux st st' := by
  induction n generalizing st with
  | zero => simp [packetLoopN] at h
  | succ n ih =>
    unfold packetLoopN at h
    simp only at h
    split_ifs at h with h1 h2 h3
    · cases h
      exact mux_same rfl rfl rfl rfl
    · have hA : Mux st { st with op := (th_encode_packetout st.ctx last st.op).2.1,
                                 ctx := (th_encode_packetout st.ctx last st.op).2.2 } :=
        mux_same rfl rfl rfl rfl
      exact mux_trans hA (mux_trans (packetin_mux pol _ h3) (mux_trans (pageoutLoop_mux pol _) (ih _ h)))

theorem packetLoop_mux (pol : OggPolicy) (last : Bool) (st st' : State)
    (h : packetLoop pol last st = Run.ok st') : Mux st st' :=
  packetLoopN_mux pol last _ st st' h

theorem checkFrame_later (env : Env) (jf : Jpeg) (st st' : State) (hw : st.w ≠ 0)
    (h : checkFrame env jf st = Run.ok st') : st' = st := by
  unfold checkFrame at h
  rw [if_neg hw] at h
  split_ifs at h
  cases h
  rfl

theorem frame_tail_mux (env : Env) (idx : Nat) (st st' : State)
    (h : (match packetLoop env.pol false
            { st with buff := some idx, ctx := th_encode_ycbcr_in st.ctx (some idx) } with
          | Run.ok s => Run.ok { s with progress := s.progress ++ [s.i] }
          | r => r) = Run.ok st') : Mux st st' := by
  split at h
  · rename_i s hs
    cases h
    have h1 := packetLoop_mux _ _ _ _ hs
    exact mux_trans (mux_trans (mux_same rfl rfl rfl rfl) h1) (mux_same rfl rfl rfl rfl)
  · rename_i r hr
    rw [h] at hr
    exact absurd rfl (hr st')

theorem frame_mux (env : Env) (idx : Nat) (jf : Jpeg) (st st' : State) (hw : st.w ≠ 0)
    (h : frame env idx jf st = Run.ok st') : Mux st st' := by
  unfold frame at h
  split at h
  · rename_i s hs
    have := checkFrame_later env jf st s hw hs
    subst this
    exact frame_tail_mux env idx _ st' h
  · rename_i r hr
    rw [h] at hr
    exact absurd rfl (hr st')

theorem mainLoopN_mux (env : Env) (n : Nat) (st st' : State) (hw : st.w ≠ 0)
    (h : mainLoopN env n st = Run.ok st') : Mux st st' := by
  induction n generalizing st with
  | zero => simp [mainLoopN] at h
  | succ n ih =>
    unfold mainLoopN at h
    split_ifs at h with h1
    simp only at h
    split at h
    · split_ifs at h with h2
      · exact mux_trans (mux_same rfl rfl rfl rfl) (ih { st with i := st.i + 1 } hw h)
      · cases h
        exact mux_same rfl rfl rfl rfl
    · rename_i jf hjf
      split at h
      · rename_i s hs
        have hm : Mux { st with i := st.i + 1 } s := frame_mux env _ jf _ s hw hs
        have hw2 : s.w ≠ 0 := by rw [hm.2.1]; exact hw
        exact mux_trans (mux_same rfl rfl rfl rfl) (mux_trans hm (ih _ hw2 h))
      · rename_i r hr
        rw [h] at hr
        exact absurd rfl (hr st')

theorem packetin_accepts (pol : OggPolicy) (hin : ∀ os op, pol.packetinFails os op = false)
    (st : State) (hb : st.os.body_data = true) :
    (packetin pol st).2.out = st.out ∧ (packetin pol st).2.sent = st.sent ++ [st.op] ∧
    (packetin pol st).2.os.queue = st.os.queue ++ [st.op] ∧
    (packetin pol st).2.os.body_data = true ∧ (packetin pol st).2.w = st.w ∧
    (packetin pol st).2.ctx = st.ctx := by
  simp [packetin, ogg_stream_packetin, hin, hb]

theorem outputHeader2N_spec (pol : OggPolicy) (hin : ∀ os op, pol.packetinFails os op = false)
    (n : Nat) (st st' : State) (c : th_enc_ctx) (hc : st.ctx = some c)
    (hb : st.os.body_data = true) (h : outputHeader2N pol n st = Run.ok st') :
    st'.out = st.out ∧ st'.sent = st.sent ++ laterHeaders c.headers ∧
    st'.os.queue = st.os.queue ++ laterHeaders c.headers ∧ st'.os.body_data = true ∧
    st'.w = st.w := by
  induction n generalizing st c with
  | zero => simp [outputHeader2N] at h
  | succ n ih =>
    unfold outputHeader2N at h
    simp only at h
    rw [hc] at h
    cases hh : c.headers with
    | nil =>
      simp [th_encode_flushheader, hh] at h
      subst h
      simp [laterHeaders, hb]
    | cons e rest =>
      obtain ⟨rv, p⟩ := e
      simp only [th_encode_flushheader, hh] at h
      by_cases h0 : rv = 0
      · subst h0
        simp at h
        subst h
        simp [laterHeaders, hb]
      · by_cases hneg : rv < 0
        · simp [h0, hneg] at h
        · have hpos : 0 < rv := by omega
          simp only [h0, hneg, hpos, if_true, if_false, gt_iff_lt, ite_true, ite_false] at h
          have hacc := packetin_accepts pol hin
            { st with op := p, ctx := some { c with headers := rest } } hb
          obtain ⟨a1, a2, a3, a4, a5, a6⟩ := hacc
          have := ih _ _ a6 a4 h
          obtain ⟨b1, b2, b3, b4, b5⟩ := this
          refine ⟨b1.trans a1, ?_, ?_, b4, b5.trans a5⟩
          · rw [b2, a2]
            simp [laterHeaders, hpos]
          · rw [b3, a3]
            simp [laterHeaders, hpos]

theorem flushN_sent (pol : OggPolicy) (n : Nat) (st : State) :
    (flushN pol n st).sent = st.sent ∧ (flushN pol n st).os.body_data = st.os.body_data := by
  induction n generalizing st with
  | zero => exact ⟨rfl, rfl⟩
  | succ n ih =>
    unfold flushN
    cases h : ogg_stream_flush pol st.os with
    | none => exact ⟨rfl, rfl⟩
    | some r =>
      obtain ⟨pg, os⟩ := r
      simp only
      have := ih { st with os := os, og := pg, out := st.out ++ [pg] }
      refine ⟨this.1, this.2.trans ?_⟩
      obtain ⟨_, _, k, _, _, h2⟩ := flush_takes pol _ _ _ h
      subst h2
      rfl

theorem outputHeader1_spec (pol : OggPolicy) (hin : ∀ os op, pol.packetinFails os op = false)
    (st : State) (c : th_enc_ctx) (rv : Int) (h0 : ogg_packet) (rest : List (Int × ogg_packet))
    (hc : st.ctx = some c) (hh : c.headers = (rv, h0) :: rest) (hpos : 0 < rv) :
    (outputHeader1 pol st).out = st.out ++ [⟨1, true, [h0]⟩] ∧
    (outputHeader1 pol st).sent = st.sent ++ [h0] ∧
    (outputHeader1 pol st).os.queue = [] ∧
    (outputHeader1 pol st).os.body_data = true ∧
    (outputHeader1 pol st).w = st.w ∧
    (outputHeader1 pol st).ctx = some { c with headers := rest } := by
  simp [outputHeader1, th_encode_flushheader, hc, hh, hpos, packetin, ogg_stream_packetin,
    ogg_stream_init, hin, flush, flushN, ogg_stream_flush, takePage, forcedCount]

theorem outputHeader2_spec (pol : OggPolicy) (hin : ∀ os op, pol.packetinFails os op = false)
    (st st' : State) (c : th_enc_ctx) (hc : st.ctx = some c)
    (hb : st.os.body_data = true) (hq : st.os.queue = [])
    (h : outputHeader2 pol st = Run.ok st') :
    ∃ hp, st'.out = st.out ++ hp ∧ packetsOf hp = laterHeaders c.headers ∧
      st'.sent = st.sent ++ laterHeaders c.headers ∧ st'.os.queue = [] ∧
      st'.os.body_data = true ∧ st'.w = st.w := by
  unfold outputHeader2 at h
  split at h
  · rename_i s hs
    cases h
    obtain ⟨b1, b2, b3, b4, b5⟩ := outputHeader2N_spec pol hin _ st s c hc hb hs
    obtain ⟨m1, m2, pp, new, m3, m4, m5⟩ := flush_mux pol s
    have hsent : (flush pol s).sent = s.sent := (flushN_sent pol s.os.queue.length s).1
    have hqe := flush_queue pol s b4
    have hnew : new = [] := by
      have := hsent
      rw [m4] at this
      simpa using this
    subst hnew
    rw [hqe, b3, hq] at m5
    simp only [List.append_nil, List.nil_append] at m5
    refine ⟨pp, by rw [m3, b1], m5, ?_, hqe, ?_, m2.trans b5⟩
    · rw [hsent, b2]
    · rw [m1, b4]
  · rename_i r hr
    rw [h] at hr
    exact absurd rfl (hr st')

theorem firstFrame_spec (env : Env) (hin : ∀ os op, env.pol.packetinFails os op = false)
    (hid : ∀ ti c, env.th_encode_alloc ti = some c →
      ∃ rv h0 rest, c.headers = (rv, h0) :: rest ∧ 0 < rv)
    (jf : Jpeg) (st st1 : State) (ho : st.out = []) (hs : st.sent = [])
    (h : firstFrame env jf st = Run.ok st1) :
    ∃ ti c rv h0 rest hp, env.th_encode_alloc ti = some c ∧ c.headers = (rv, h0) :: rest ∧
      st1.out = ⟨1, true, [h0]⟩ :: hp ∧ packetsOf hp = laterHeaders rest ∧
      st1.sent = h0 :: laterHeaders rest ∧ st1.os.queue = [] ∧ st1.w = jf.w := by
  unfold firstFrame at h
  simp only at h
  split at h
  · cases h
  · rename_i thpixf hpf
    cases hc : env.th_encode_alloc (mkInfo env.fps jf.w jf.h thpixf) with
    | none => simp [hc] at h
    | some c =>
      rw [hc] at h
      simp only [reduceCtorEq, if_false] at h
      obtain ⟨rv, h0, rest, hh, hpos⟩ := hid _ c hc
      obtain ⟨a1, a2, a3, a4, a5, a6⟩ := outputHeader1_spec env.pol hin
        { st with w := jf.w, h := jf.h, subs := jf.subs, cspace := jf.cspace,
                  tinfo := some (mkInfo env.fps jf.w jf.h thpixf), ctx := some c }
        c rv h0 rest rfl hh hpos
      obtain ⟨hp, b1, b2, b3, b4, b5, b6⟩ :=
        outputHeader2_spec env.pol hin _ st1 _ a6 a4 a3 h
      refine ⟨_, c, rv, h0, rest, hp, hc, hh, ?_, b2, ?_, b4, b6.trans a5⟩
      · rw [b1, a1]
        simp [ho]
      · rw [b3, a2]
        simp [hs]

/-- What is known after the frame loop when it started before any frame. -/
theorem mainLoopN_fresh (env : Env) (hin : ∀ os op, env.pol.packetinFails os op = false)
    (hid : ∀ ti c, env.th_encode_alloc ti = some c →
      ∃ rv h0 rest, c.headers = (rv, h0) :: rest ∧ 0 < rv)
    (hw : ∀ jf, some jf ∈ env.files → jf.w ≠ 0)
    (n : Nat) (st st' : State) (hw0 : st.w = 0) (ho : st.out = []) (hs : st.sent = [])
    (hc : st.ctx = none) (h : mainLoopN env n st = Run.ok st') :
    st'.ctx = none ∨
    ∃ ti c rv h0 rest hp st1, env.th_encode_alloc ti = some c ∧ c.headers = (rv, h0) :: rest ∧
      st1.out = ⟨1, true, [h0]⟩ :: hp ∧ packetsOf hp = laterHeaders rest ∧
      st1.sent = h0 :: laterHeaders rest ∧ st1.os.queue = [] ∧ Mux st1 st' := by
  induction n generalizing st with
  | zero => simp [mainLoopN] at h
  | succ n ih =>
    unfold mainLoopN at h
    split_ifs at h with h1
    simp only at h
    split at h
    · split_ifs at h with h2
      · exact ih { st with i := st.i + 1 } hw0 ho hs hc h
      · cases h
        exact Or.inl hc
    · rename_i jf hjf
      right
      split at h
      · rename_i s hs2
        unfold frame at hs2
        split at hs2
        · rename_i s1 hs1
          unfold checkFrame at hs1
          have hw0' : ({ st with i := st.i + 1 } : State).w = 0 := hw0
          rw [if_pos hw0'] at hs1
          obtain ⟨ti, c, rv, h0, rest, hp, c1, c2, c3, c4, c5, c6, c7⟩ :=
            firstFrame_spec env hin hid jf { st with i := st.i + 1 } s1 ho hs hs1
          have hm1 : Mux s1 s := frame_tail_mux env _ s1 s hs2
          have hws : s.w ≠ 0 := by
            rw [hm1.2.1, c7]
            exact hw jf (file_mem env _ jf hjf)
          have hm2 : Mux s st' := mainLoopN_mux env n s st' hws h
          exact ⟨ti, c, rv, h0, rest, hp, s1, c1, c2, c3, c4, c5, c6, mux_trans hm1 hm2⟩
        · rename_i r hr
          rw [hs2] at hr
          exact absurd rfl (hr s)
      · rename_i r hr
        rw [h] at hr
        exact absurd rfl (hr st')

theorem finalFlushN_out (pol : OggPolicy) (n : Nat) (st : State) :
    ∃ pp new, (finalFlushN pol n st).out = st.out ++ pp ∧
      (finalFlushN pol n st).sent = st.sent ++ new ∧
      List.Sublist (packetsOf pp) (st.os.queue ++ new) := by
  induction n generalizing st with
  | zero => exact ⟨[], [], by simp [finalFlushN], by simp [finalFlushN], by simp [packetsOf]⟩
  | succ n ih =>
    unfold finalFlushN
    cases h : ogg_stream_flush pol st.os with
    | none => exact ⟨[], [], by simp, by simp, by simp [packetsOf]⟩
    | some r =>
      obtain ⟨pg, os⟩ := r
      simp only
      obtain ⟨_, _, k, _, _, h2⟩ := flush_takes pol _ _ _ h
      obtain ⟨m1, m2, pp1, new1, m3, m4, m5⟩ :=
        pageoutLoop_mux pol { st with os := os, og := pg, flushed := st.flushed ++ [pg] }
      obtain ⟨pp2, new2, i1, i2, i3⟩ :=
        ih (pageoutLoop pol { st with os := os, og := pg, flushed := st.flushed ++ [pg] })
      refine ⟨pp1 ++ pp2, new1 ++ new2, ?_, ?_, ?_⟩
      · rw [i1, m3, List.append_assoc]
      · rw [i2, m4, List.append_assoc]
      · rw [packetsOf_append]
        have hA : List.Sublist (packetsOf pp1 ++ packetsOf pp2)
            (packetsOf pp1 ++ ((pageoutLoop pol
              { st with os := os, og := pg, flushed := st.flushed ++ [pg] }).os.queue ++ new2)) :=
          List.Sublist.append (List.Sublist.refl _) i3
        rw [← List.append_assoc, m5] at hA
        have hB : List.Sublist os.queue st.os.queue := by
          rw [h2]
          exact List.drop_sublist _ _
        have hC : List.Sublist (os.queue ++ new1 ++ new2) (st.os.queue ++ (new1 ++ new2)) := by
          rw [List.append_assoc]
          exact List.Sublist.append hB (List.Sublist.refl _)
        exact hA.trans hC

theorem finish_out (env : Env) (st st' : State) (h : finish env st = Run.ok st') :
    st.ctx ≠ none ∧ ∃ pp new, st'.out = st.out ++ pp ∧ st'.sent = st.sent ++ new ∧
      List.Sublist (packetsOf pp) (st.os.queue ++ new) := by
  constructor
  · intro hc
    simp [finish, hc, th_encode_ycbcr_in, packetLoop, pendingLeft, packetLoopN,
      th_encode_packetout, TH_EFAULT] at h
  · unfold finish at h
    simp only at h
    split at h
    · rename_i s hs
      cases h
      obtain ⟨m1, m2, pp1, new1, m3, m4, m5⟩ := packetLoop_mux _ _ _ _ hs
      obtain ⟨pp2, new2, i1, i2, i3⟩ := finalFlushN_out env.pol s.os.queue.length s
      refine ⟨pp1 ++ pp2, new1 ++ new2, ?_, ?_, ?_⟩
      · show (finalFlushN env.pol s.os.queue.length s).out = _
        rw [i1, m3, List.append_assoc]
      · show (finalFlushN env.pol s.os.queue.length s).sent = _
        rw [i2, m4, List.append_assoc]
      · rw [packetsOf_append]
        have hA : List.Sublist (packetsOf pp1 ++ packetsOf pp2)
            (packetsOf pp1 ++ (s.os.queue ++ new2)) :=
          List.Sublist.append (List.Sublist.refl _) i3
        rw [← List.append_assoc, m5] at hA
        simpa [List.append_assoc] using hA
    · rename_i r hr
      rw [h] at hr
      exact absurd rfl (hr st')

/-- C2: in a run that ends normally, where libogg accepts every packet, the codec
delivers a first header packet and the images have a width that is not 0, the
first page written is the beginning-of-stream page with exactly one packet,
the first header packet `h0`; the pages `hp` that follow carry exactly the
remaining header packets; all other pages `pp` come after them and carry only
packets submitted after the headers (`payload`). -/
theorem header_pages_first (env : Env) (st : State)
    (hw : ∀ jf, some jf ∈ env.files → jf.w ≠ 0)
    (hin : ∀ os op, env.pol.packetinFails os op = false)
    (hid : ∀ ti c, env.th_encode_alloc ti = some c →
      ∃ rv h0 rest, c.headers = (rv, h0) :: rest ∧ 0 < rv)
    (hrun : main env = Run.ok st) :
    ∃ ti c rv h0 rest hp pp payload,
      env.th_encode_alloc ti = some c ∧ c.headers = (rv, h0) :: rest ∧
      st.out = ⟨1, true, [h0]⟩ :: (hp ++ pp) ∧
      packetsOf hp = laterHeaders rest ∧
      st.sent = h0 :: laterHeaders rest ++ payload ∧
      List.Sublist (packetsOf pp) payload := by
  unfold main at hrun
  split_ifs at hrun with hg
  split at hrun
  · rename_i s hs
    obtain ⟨hctx, pp2, new2, f1, f2, f3⟩ := finish_out env s st hrun
    rcases mainLoopN_fresh env hin hid hw _ st0 s rfl rfl rfl rfl hs with hn | hx
    · exact absurd hn hctx
    · obtain ⟨ti, c, rv, h0, rest, hp, st1, c1, c2, c3, c4, c5, c6, m1, m2, pp1, new1, m3, m4, m5⟩ := hx
      refine ⟨ti, c, rv, h0, rest, hp, pp1 ++ pp2, new1 ++ new2, c1, c2, ?_, c4, ?_, ?_⟩
      · rw [f1, m3, c3]
        simp
      · rw [f2, m4, c5]
        simp
      · rw [packetsOf_append]
        rw [c6, List.nil_append] at m5
        have hA : List.Sublist (packetsOf pp1 ++ packetsOf pp2)
            (packetsOf pp1 ++ (s.os.queue ++ new2)) :=
          List.Sublist.append (List.Sublist.refl _) f3
        rw [← List.append_assoc, m5] at hA
        exact hA
  · rename_i r hr
    rw [hrun] at hr
    exact absurd rfl (hr st)

/-- Witness for C2: a run on two images. -/
theorem header_pages_first_witness :
    ∃ st, main (demoEnv [some img, some img]) = Run.ok st ∧
      ∃ ti c rv h0 rest hp pp payload,
        (demoEnv [some img, some img]).th_encode_alloc ti = some c ∧
        c.headers = (rv, h0) :: rest ∧
        st.out = ⟨1, true, [h0]⟩ :: (hp ++ pp) ∧
        packetsOf hp = laterHeaders rest ∧
        st.sent = h0 :: laterHeaders rest ++ payload ∧
        List.Sublist (packetsOf pp) payload :=
  ⟨_, rfl, header_pages_first (demoEnv [some img, some img]) _
    (by
      intro jf h
      simp only [demoEnv, List.mem_cons, Option.some.injEq, List.mem_singleton] at h
      have : jf = img := by
        rcases h with h | h | h
        · exact h
        · exact h
        · cases h
      subst this
      decide)
    (fun _ _ => rfl)
    (by
      intro ti c h
      simp only [demoEnv, Option.some.injEq] at h
      subst h
      exact ⟨1, pkt 100, _, rfl, by decide⟩)
    rfl⟩

theorem keep_refl (st : State) : Keep st st := ⟨rfl, rfl, rfl, rfl, rfl⟩

theorem keep_trans {a b c : State} (h1 : Keep a b) (h2 : Keep b c) : Keep a c :=
  ⟨h2.1.trans h1.1, h2.2.1.trans h1.2.1, h2.2.2.1.trans h1.2.2.1,
   h2.2.2.2.1.trans h1.2.2.2.1, h2.2.2.2.2.trans h1.2.2.2.2⟩

theorem pageoutLoopN_keep (pol : OggPolicy) (n : Nat) (st : State) :
    Keep st (pageoutLoopN pol n st) := by
  induction n generalizing st with
  | zero => exact keep_refl st
  | succ n ih =>
    unfold pageoutLoopN
    split
    · exact keep_refl st
    · exact keep_trans ⟨rfl, rfl, rfl, rfl, rfl⟩ (ih _)

theorem flushN_keep (pol : OggPolicy) (n : Nat) (st : State) :
    Keep st (flushN pol n st) := by
  induction n generalizing st with
  | zero => exact keep_refl st
  | succ n ih =>
    unfold flushN
    split
    · exact keep_refl st
    · exact keep_trans ⟨rfl, rfl, rfl, rfl, rfl⟩ (ih _)

theorem packetin_keep (pol : OggPolicy) (st : State) : Keep st (packetin pol st).2 :=
  ⟨rfl, rfl, rfl, rfl, rfl⟩

theorem packetLoopN_keep (pol : OggPolicy) (last : Bool) (n : Nat) (st st' : State)
    (h : packetLoopN pol last n st = Run.ok st') : Keep st st' := by
  induction n generalizing st with
  | zero => simp [packetLoopN] at h
  | succ n ih =>
    unfold packetLoopN at h
    simp only at h
    split_ifs at h with h1 h2 h3
    · cases h
      exact ⟨rfl, rfl, rfl, rfl, rfl⟩
    · have hA : Keep st { st with op := (th_encode_packetout st.ctx last st.op).2.1,
                                  ctx := (th_encode_packetout st.ctx last st.op).2.2 } :=
        ⟨rfl, rfl, rfl, rfl, rfl⟩
      exact keep_trans hA (keep_trans (packetin_keep pol _)
        (keep_trans (pageoutLoopN_keep pol _ _) (ih _ h)))

theorem outputHeader2N_keep (pol : OggPolicy) (n : Nat) (st st' : State)
    (h : outputHeader2N pol n st = Run.ok st') : Keep st st' := by
  induction n generalizing st with
  | zero => simp [outputHeader2N] at h
  | succ n ih =>
    unfold outputHeader2N at h
    simp only at h
    split_ifs at h with h1 h2
    · cases h
      exact ⟨rfl, rfl, rfl, rfl, rfl⟩
    · have hA : Keep st { st with op := (th_encode_flushheader st.ctx st.op).2.1,
                                  ctx := (th_encode_flushheader st.ctx st.op).2.2 } :=
        ⟨rfl, rfl, rfl, rfl, rfl⟩
      exact keep_trans hA (keep_trans (packetin_keep pol _) (ih _ h))

theorem outputHeader1_keep (pol : OggPolicy) (st : State) : Keep st (outputHeader1 pol st) := by
  unfold outputHeader1
  simp only
  refine keep_trans (b := (packetin pol { st with
      os := ogg_stream_init 1,
      op := (th_encode_flushheader st.ctx st.op).2.1,
      ctx := (th_encode_flushheader st.ctx st.op).2.2 }).2) ?_ (flushN_keep pol _ _)
  exact ⟨rfl, rfl, rfl, rfl, rfl⟩

theorem outputHeader2_keep (pol : OggPolicy) (st st' : State)
    (h : outputHeader2 pol st = Run.ok st') : Keep st st' := by
  unfold outputHeader2 at h
  split at h
  · rename_i s hs
    cases h
    exact keep_trans (outputHeader2N_keep _ _ _ _ hs) (flushN_keep pol _ _)
  · rename_i r hr
    rw [h] at hr
    exact absurd rfl (hr st')

theorem firstFrame_keep (env : Env) (jf : Jpeg) (st st' : State)
    (h : firstFrame env jf st = Run.ok st') :
    st'.i = st.i ∧ st'.w = jf.w ∧ st'.h = jf.h ∧ st'.subs = jf.subs ∧ st'.cspace = jf.cspace := by
  unfold firstFrame at h
  simp only at h
  split at h
  · cases h
  · split_ifs at h
    exact keep_trans (outputHeader1_keep env.pol _) (outputHeader2_keep env.pol _ _ h)

theorem frame_tail_keep (env : Env) (idx : Nat) (st st' : State)
    (h : (match packetLoop env.pol false
            { st with buff := some idx, ctx := th_encode_ycbcr_in st.ctx (some idx) } with
          | Run.ok s => Run.ok { s with progress := s.progress ++ [s.i] }
          | r => r) = Run.ok st') : Keep st st' := by
  split at h
  · rename_i s hs
    cases h
    have h1 := packetLoopN_keep _ _ _ _ _ hs
    exact keep_trans (keep_trans (a := st) ⟨rfl, rfl, rfl, rfl, rfl⟩ h1) ⟨rfl, rfl, rfl, rfl, rfl⟩
  · rename_i r hr
    rw [h] at hr
    exact absurd rfl (hr st')

/-- A frame that passes leaves the frame counter alone and the metadata are
those of the first frame: the recorded ones, or its own when it is the first. -/
theorem frame_keep (env : Env) (idx : Nat) (jf : Jpeg) (st st' : State)
    (h : frame env idx jf st = Run.ok st') :
    st'.i = st.i ∧ (st.w ≠ 0 → Keep st st') ∧
    (st.w = 0 → st'.w = jf.w ∧ st'.h = jf.h ∧ st'.subs = jf.subs ∧ st'.cspace = jf.cspace) := by
  unfold frame at h
  split at h
  · rename_i s hs
    have hk := frame_tail_keep env idx s st' h
    by_cases hw : st.w = 0
    · unfold checkFrame at hs
      rw [if_pos hw] at hs
      obtain ⟨f1, f2, f3, f4, f5⟩ := firstFrame_keep env jf st s hs
      refine ⟨hk.1.trans f1, fun hne => absurd hw hne, fun _ => ?_⟩
      exact ⟨hk.2.1.trans f2, hk.2.2.1.trans f3, hk.2.2.2.1.trans f4, hk.2.2.2.2.trans f5⟩
    · have := checkFrame_later env jf st s hw hs
      subst this
      exact ⟨hk.1, fun _ => hk, fun h0 => absurd h0 hw⟩
  · rename_i r hr
    rw [h] at hr
    exact absurd rfl (hr st')

/-- The four checks: with metadata recorded and an image that differs from
them, the check throws, names a field that differs and leaves the state as it
is. -/
theorem checkFrame_mismatch (env : Env) (jf : Jpeg) (st : State) (hw : st.w ≠ 0)
    (hd : ¬ (jf.w = st.w ∧ jf.h = st.h ∧ jf.subs = st.subs ∧ jf.cspace = st.cspace)) :
    ∃ what, checkFrame env jf st = Run.thrown what st ∧
      Names what ⟨st.w, st.h, st.subs, st.cspace⟩ jf := by
  unfold checkFrame Names
  rw [if_neg hw]
  by_cases h1 : st.w = jf.w
  · by_cases h2 : st.h = jf.h
    · by_cases h3 : st.subs = jf.subs
      · by_cases h4 : st.cspace = jf.cspace
        · exact absurd ⟨h1.symm, h2.symm, h3.symm, h4.symm⟩ hd
        · exact ⟨_, by simp [h1, h2, h3, h4], Or.inr (Or.inr (Or.inr ⟨rfl, fun h => h4 h.symm⟩))⟩
      · exact ⟨_, by simp [h1, h2, h3], Or.inr (Or.inr (Or.inl ⟨rfl, fun h => h3 h.symm⟩))⟩
    · exact ⟨_, by simp [h1, h2], Or.inr (Or.inl ⟨rfl, fun h => h2 h.symm⟩)⟩
  · exact ⟨_, by simp [h1], Or.inl ⟨rfl, fun h => h1 h.symm⟩⟩

theorem frame_mismatch (env : Env) (idx : Nat) (jf : Jpeg) (st : State) (hw : st.w ≠ 0)
    (hd : ¬ (jf.w = st.w ∧ jf.h = st.h ∧ jf.subs = st.subs ∧ jf.cspace = st.cspace)) :
    ∃ what, frame env idx jf st = Run.thrown what st ∧
      Names what ⟨st.w, st.h, st.subs, st.cspace⟩ jf := by
  obtain ⟨what, h1, h2⟩ := checkFrame_mismatch env jf st hw hd
  refine ⟨what, ?_, h2⟩
  unfold frame
  rw [h1]

/-- The frame loop never ends with a frame counter below the one it started
with, and past the first frame it keeps the metadata. -/
theorem mainLoopN_keep (env : Env) (n : Nat) (st st' : State)
    (h : mainLoopN env n st = Run.ok st') :
    st.i + 1 ≤ st'.i ∧
    (st.w ≠ 0 → st'.w = st.w ∧ st'.h = st.h ∧ st'.subs = st.subs ∧ st'.cspace = st.cspace) := by
  induction n generalizing st with
  | zero => simp [mainLoopN] at h
  | succ n ih =>
    unfold mainLoopN at h
    split_ifs at h with h1
    simp only at h
    split at h
    · split_ifs at h with h2
      · have := ih { st with i := st.i + 1 } h
        exact ⟨by have := this.1; simp only at this; omega, this.2⟩
      · cases h
        exact ⟨Nat.le_refl _, fun _ => ⟨rfl, rfl, rfl, rfl⟩⟩
    · rename_i jf hjf
      split at h
      · rename_i s hs
        obtain ⟨k1, k2, k3⟩ := frame_keep env _ jf _ s hs
        obtain ⟨i1, i2⟩ := ih s h
        refine ⟨by simp only at k1; omega, fun hw => ?_⟩
        have hk := k2 hw
        have hws : s.w ≠ 0 := by rw [hk.2.1]; exact hw
        obtain ⟨j1, j2, j3, j4⟩ := i2 hws
        exact ⟨j1.trans hk.2.1, j2.trans hk.2.2.1, j3.trans hk.2.2.2.1, j4.trans hk.2.2.2.2⟩
      · rename_i r hr
        rw [h] at hr
        exact absurd rfl (hr st')

theorem file_before (env : Env) (pre post : List (Option Jpeg)) (jfk : Jpeg)
    (hf : env.files = pre ++ some jfk :: post) (i : Nat) (hi : i < pre.length) :
    ({ env with files := pre } : Env).file i = env.file i := by
  simp only [Env.file, hf, List.get?_eq_getElem?]
  rw [List.getElem?_append_left hi]

theorem file_at (env : Env) (pre post : List (Option Jpeg)) (jfk : Jpeg)
    (hf : env.files = pre ++ some jfk :: post) :
    env.file pre.length = some jfk := by
  simp only [Env.file, hf, List.get?_eq_getElem?]
  rw [List.getElem?_append_right (Nat.le_refl _)]
  simp

theorem file_past (env : Env) (pre : List (Option Jpeg)) (i : Nat) (hi : pre.length ≤ i) :
    ({ env with files := pre } : Env).file i = none := by
  simp only [Env.file, List.get?_eq_getElem?]
  rw [List.getElem?_eq_none hi]
  rfl

/-- The frame loop on the files before index `k` and on all files: when the
first ends at index `k` and frame `k` does not pass, the second ends with the
outcome of frame `k`. -/
theorem mainLoopN_split (env : Env) (pre post : List (Option Jpeg)) (jfk : Jpeg)
    (hf : env.files = pre ++ some jfk :: post) (r : Run State) (hr : ∀ s, r ≠ Run.ok s)
    (n extra : Nat) (st st' : State)
    (h : mainLoopN { env with files := pre } n st = Run.ok st')
    (hi : st'.i = pre.length + 1)
    (hfr : frame env pre.length jfk st' = r) :
    mainLoopN env (n + (extra + 1)) st = r := by
  induction n generalizing st with
  | zero => simp [mainLoopN] at h
  | succ n ih =>
    have hge := (mainLoopN_keep _ _ _ _ h).1
    have hfuel : n + 1 + (extra + 1) = (n + (extra + 1)) + 1 := by omega
    rw [hfuel]
    unfold mainLoopN at h ⊢
    split_ifs at h with h1
    have h1' : ¬ (env.snprintf st.i % 2 ^ 64).toNat ≥ env.pstr_size := h1
    rw [if_neg h1']
    simp only at h ⊢
    by_cases hlt : st.i < pre.length
    · rw [file_before env pre post jfk hf st.i hlt] at h
      cases hfile : env.file st.i with
      | none =>
        rw [hfile] at h
        simp only at h ⊢
        split_ifs at h with h2
        · rw [if_pos h2]
          exact ih _ h
        · cases h
          simp only at hi
          omega
      | some jf =>
        rw [hfile] at h
        simp only at h ⊢
        have hsame : frame { env with files := pre } st.i jf { st with i := st.i + 1 }
            = frame env st.i jf { st with i := st.i + 1 } := rfl
        rw [hsame] at h
        split at h
        · rename_i s hs
          exact ih s h
        · rename_i r2 hr2
          rw [h] at hr2
          exact absurd rfl (hr2 st')
    · have heq : st.i = pre.length := by omega
      rw [file_past env pre st.i (by omega)] at h
      simp only at h
      split_ifs at h with h2
      · have := (mainLoopN_keep _ _ _ _ h).1
        simp only at this
        omega
      · cases h
        rw [heq, file_at env pre post jfk hf]
        simp only
        rw [heq] at hfr
        rw [hfr]
        cases r with
        | ok s => exact absurd rfl (hr s)
        | thrown what s => rfl
        | nofuel s => rfl

theorem mainLoopN_meta_at (env : Env) (n : Nat) (st st' : State) (jf0 : Jpeg)
    (hw0 : st.w = 0) (hfile : env.file st.i = some jf0) (hjw : jf0.w ≠ 0)
    (h : mainLoopN env n st = Run.ok st') :
    st'.w = jf0.w ∧ st'.h = jf0.h ∧ st'.subs = jf0.subs ∧ st'.cspace = jf0.cspace := by
  cases n with
  | zero => simp [mainLoopN] at h
  | succ n =>
    unfold mainLoopN at h
    split_ifs at h with h1
    simp only at h
    rw [hfile] at h
    simp only at h
    split at h
    · rename_i s hs
      obtain ⟨_, _, k3⟩ := frame_keep env _ jf0 _ s hs
      obtain ⟨m1, m2, m3, m4⟩ := k3 hw0
      have hws : s.w ≠ 0 := by rw [m1]; exact hjw
      obtain ⟨j1, j2, j3, j4⟩ := (mainLoopN_keep env n s st' h).2 hws
      exact ⟨j1.trans m1, j2.trans m2, j3.trans m3, j4.trans m4⟩
    · rename_i r hr
      rw [h] at hr
      exact absurd rfl (hr st')

theorem mainLoopN_meta (env : Env) (n : Nat) (st st' : State) (jf0 : Jpeg)
    (hw0 : st.w = 0) (hi : st.i = 0)
    (hfirst : env.file 0 = some jf0 ∨ (env.file 0 = none ∧ env.file 1 = some jf0))
    (hjw : jf0.w ≠ 0) (h : mainLoopN env n st = Run.ok st') :
    st'.w = jf0.w ∧ st'.h = jf0.h ∧ st'.subs = jf0.subs ∧ st'.cspace = jf0.cspace := by
  rcases hfirst with h0 | ⟨h0, h1⟩
  · exact mainLoopN_meta_at env n st st' jf0 hw0 (by rw [hi]; exact h0) hjw h
  · cases n with
    | zero => simp [mainLoopN] at h
    | succ n =>
      unfold mainLoopN at h
      split_ifs at h with hp
      simp only at h
      rw [hi, h0] at h
      simp only [if_true] at h
      exact mainLoopN_meta_at env n { st with i := 0 + 1 } st' jf0 hw0 h1 hjw h

/-- C4: take a run on the files before index `k` whose frame loop ends normally
at index `k`, with first image `jf0` (index 0, or index 1 when index 0 is
missing) of a width that is not 0.  Put an image `jfk` at index `k` that
differs from `jf0` in width, height, subsampling or colour space (and any
files after it).  Then `main` throws, the message names a field in which
`jfk` differs from `jf0`, and the state at the throw is the state `st` in
which the run without `jfk` left its frame loop: frame `k` was not decoded
into the frame buffer (`buff`), not handed to the codec (`encoded`), and no
packet or page was produced for it (`sent`, `out`). -/
theorem mismatch_fails_before_frame (env : Env) (jf0 jfk : Jpeg) (post : List (Option Jpeg))
    (st : State) (hout : env.outGood = true)
    (hfirst : env.file 0 = some jf0 ∨ (env.file 0 = none ∧ env.file 1 = some jf0))
    (hw : jf0.w ≠ 0)
    (hpre : mainLoopN env (env.files.length + 2) st0 = Run.ok st)
    (hk : st.i = env.files.length + 1)
    (hd : ¬ (jfk.w = jf0.w ∧ jfk.h = jf0.h ∧ jfk.subs = jf0.subs ∧ jfk.cspace = jf0.cspace)) :
    ∃ what, main { env with files := env.files ++ some jfk :: post } = Run.thrown what st ∧
      Names what jf0 jfk := by
  obtain ⟨m1, m2, m3, m4⟩ := mainLoopN_meta env _ st0 st jf0 rfl rfl hfirst hw hpre
  have hws : st.w ≠ 0 := by rw [m1]; exact hw
  have hd' : ¬ (jfk.w = st.w ∧ jfk.h = st.h ∧ jfk.subs = st.subs ∧ jfk.cspace = st.cspace) := by
    rw [m1, m2, m3, m4]
    exact hd
  obtain ⟨what, hfr, hn⟩ := frame_mismatch
    { env with files := env.files ++ some jfk :: post } env.files.length jfk st hws hd'
  refine ⟨what, ?_, ?_⟩
  · unfold main
    rw [if_neg (by simp [hout])]
    have hlen : ({ env with files := env.files ++ some jfk :: post } : Env).files.length + 2
        = (env.files.length + 2) + (post.length + 1) := by
      simp only [List.length_append, List.length_cons]
      omega
    rw [hlen]
    have hsplit := mainLoopN_split { env with files := env.files ++ some jfk :: post }
      env.files post jfk rfl (Run.thrown what st) (fun s hs => by cases hs)
      (env.files.length + 2) post.length st0 st hpre hk hfr
    rw [hsplit]
  · unfold Names at hn ⊢
    simp only [m1, m2, m3, m4] at hn
    exact hn

/-- Witness for C4: one image of 20 by 10 pixels, then one of 20 by 12. -/
theorem mismatch_fails_before_frame_witness :
    ∃ st, mainLoopN (demoEnv [some img]) 3 st0 = Run.ok st ∧
      ∃ what, main { demoEnv [some img] with
                     files := (demoEnv [some img]).files ++ [some ⟨20, 12, 2, 1⟩] }
                = Run.thrown what st ∧
              Names what img ⟨20, 12, 2, 1⟩ :=
  ⟨_, rfl, mismatch_fails_before_frame (demoEnv [some img]) img ⟨20, 12, 2, 1⟩ [] _ rfl
    (Or.inl rfl) (by decide) rfl rfl (by decide)⟩

/-- C8, evaluated on runs in which neither index 0 nor index 1 can be opened
(no file at all; no file 0 and 1 but a file 2): the frame loop ends with no
codec session (`ctx` is null), the closing code calls `th_encode_packetout` on
it, which returns `TH_EFAULT`, and `main` throws "packetout" instead of
returning 0.  No frame was encoded and nothing was written. -/
theorem no_input_files_throws :
    main (demoEnv []) = Run.thrown "packetout" { st0 with i := 2 } ∧
    main (demoEnv [none, none, some img]) = Run.thrown "packetout" { st0 with i := 2 } ∧
    ({ st0 with i := 2 } : State).encoded = [] ∧ ({ st0 with i := 2 } : State).out = [] :=
  ⟨rfl, rfl, rfl, rfl⟩

theorem ldiff_15 (m : Nat) : Nat.ldiff m 15 = 16 * (m / 16) := by
  apply Nat.eq_of_testBit_eq
  intro i
  rw [Nat.testBit_ldiff]
  have h15 : Nat.testBit 15 i = decide (i < 4) := Nat.testBit_two_pow_sub_one 4 i
  have h16 : Nat.testBit (16 * (m / 16)) i = (decide (i ≥ 4) && Nat.testBit (m / 16) (i - 4)) :=
    Nat.testBit_mul_pow_two (i := 4) (a := m / 16) (j := i)
  have hdiv : Nat.testBit (m / 16) (i - 4) = Nat.testBit m (4 + (i - 4)) := by
    have : m / 16 = m >>> 4 := (Nat.shiftRight_eq_div_pow m 4).symm
    rw [this, Nat.testBit_shiftRight]
  rw [h15, h16, hdiv]
  by_cases hi : i < 4
  · simp [hi]
  · have : 4 + (i - 4) = i := by omega
    have hge : i ≥ 4 := by omega
    simp [hi, this, hge]

/-- The expression `(x+15)&~0xf` for `x` from 0 to `2^31 - 16`: 16 times the
quotient of `x + 15` by 16. -/
theorem roundUp16_eq (x : Int) (h0 : 0 ≤ x) (h1 : x ≤ 2 ^ 31 - 16) :
    roundUp16 x = 16 * ((x + 15) / 16) := by
  unfold roundUp16 toInt32
  have hw : (x + 15 + 2 ^ 31) % 2 ^ 32 - 2 ^ 31 = x + 15 := by
    rw [Int.emod_eq_of_lt (by omega) (by omega)]
    omega
  rw [hw]
  obtain ⟨m, hm⟩ := Int.eq_ofNat_of_zero_le (show 0 ≤ x + 15 by omega)
  rw [hm]
  have hl : Int.land (m : Int) (~~~(0xf : Int)) = ((Nat.ldiff m 15 : Nat) : Int) := rfl
  rw [hl, ldiff_15]
  push_cast
  rfl

/-- C10: for a first frame of width `w` and height `h` between 1 and
`2^31 - 16`, the frame width of the stream info is the least multiple of 16
from `w` on, the frame height the least multiple of 16 from `h` on; the picture
width and height are `w` and `h`, the picture offset is (0, 0), and the frame
exceeds the picture by less than 16 in each direction. -/
theorem frame_size_rounding (fps w h pf : Int) (hw0 : 1 ≤ w) (hw1 : w ≤ 2 ^ 31 - 16)
    (hh0 : 1 ≤ h) (hh1 : h ≤ 2 ^ 31 - 16) :
    ((mkInfo fps w h pf).frame_width % 16 = 0 ∧ w ≤ (mkInfo fps w h pf).frame_width ∧
      ∀ m : Int, m % 16 = 0 → w ≤ m → (mkInfo fps w h pf).frame_width ≤ m) ∧
    ((mkInfo fps w h pf).frame_height % 16 = 0 ∧ h ≤ (mkInfo fps w h pf).frame_height ∧
      ∀ m : Int, m % 16 = 0 → h ≤ m → (mkInfo fps w h pf).frame_height ≤ m) ∧
    (mkInfo fps w h pf).pic_width = w ∧ (mkInfo fps w h pf).pic_height = h ∧
    (mkInfo fps w h pf).pic_x = 0 ∧ (mkInfo fps w h pf).pic_y = 0 ∧
    0 ≤ (mkInfo fps w h pf).frame_width - (mkInfo fps w h pf).pic_width ∧
    (mkInfo fps w h pf).frame_width - (mkInfo fps w h pf).pic_width < 16 ∧
    0 ≤ (mkInfo fps w h pf).frame_height - (mkInfo fps w h pf).pic_height ∧
    (mkInfo fps w h pf).frame_height - (mkInfo fps w h pf).pic_height < 16 := by
  have hfw : (mkInfo fps w h pf).frame_width = 16 * ((w + 15) / 16) :=
    roundUp16_eq w (by omega) hw1
  have hfh : (mkInfo fps w h pf).frame_height = 16 * ((h + 15) / 16) :=
    roundUp16_eq h (by omega) hh1
  have hpw : (mkInfo fps w h pf).pic_width = w := rfl
  have hph : (mkInfo fps w h pf).pic_height = h := rfl
  rw [hfw, hfh, hpw, hph]
  refine ⟨⟨by omega, by omega, fun m hm hle => by omega⟩,
    ⟨by omega, by omega, fun m hm hle => by omega⟩, rfl, rfl, rfl, rfl, by omega, by omega,
    by omega, by omega⟩

/-- Witness for C10: an image of 20 by 10 pixels gets a frame of 32 by 16. -/
theorem frame_size_rounding_witness :
    (mkInfo 25 20 10 0).frame_width = 32 ∧ (mkInfo 25 20 10 0).frame_height = 16 ∧
    ((mkInfo 25 20 10 0).frame_width % 16 = 0 ∧ 20 ≤ (mkInfo 25 20 10 0).frame_width ∧
      ∀ m : Int, m % 16 = 0 → 20 ≤ m → (mkInfo 25 20 10 0).frame_width ≤ m) ∧
    ((mkInfo 25 20 10 0).frame_height % 16 = 0 ∧ 10 ≤ (mkInfo 25 20 10 0).frame_height ∧
      ∀ m : Int, m % 16 = 0 → 10 ≤ m → (mkInfo 25 20 10 0).frame_height ≤ m) ∧
    (mkInfo 25 20 10 0).pic_width = 20 ∧ (mkInfo 25 20 10 0).pic_height = 10 ∧
    (mkInfo 25 20 10 0).pic_x = 0 ∧ (mkInfo 25 20 10 0).pic_y = 0 ∧
    0 ≤ (mkInfo 25 20 10 0).frame_width - (mkInfo 25 20 10 0).pic_width ∧
    (mkInfo 25 20 10 0).frame_width - (mkInfo 25 20 10 0).pic_width < 16 ∧
    0 ≤ (mkInfo 25 20 10 0).frame_height - (mkInfo 25 20 10 0).pic_height ∧
    (mkInfo 25 20 10 0).frame_height - (mkInfo 25 20 10 0).pic_height < 16 :=
  ⟨(roundUp16_eq 20 (by decide) (by decide)).trans (by decide),
    (roundUp16_eq 10 (by decide) (by decide)).trans (by decide),
    frame_size_rounding 25 20 10 0 (by decide) (by decide) (by decide) (by decide)⟩

theorem pageoutLoopN_ctx (pol : OggPolicy) (n : Nat) (st : State) :
    (pageoutLoopN pol n st).ctx = st.ctx := by
  induction n generalizing st with
  | zero => rfl
  | succ n ih =>
    unfold pageoutLoopN
    split
    · rfl
    · exact (ih _).trans rfl

theorem flushN_ctx (pol : OggPolicy) (n : Nat) (st : State) :
    (flushN pol n st).ctx = st.ctx := by
  induction n generalizing st with
  | zero => rfl
  | succ n ih =>
    unfold flushN
    split
    · rfl
    · exact (ih _).trans rfl

theorem pageout_some (pol : OggPolicy) (os os' : ogg_stream_state) (pg : ogg_page)
    (h : ogg_stream_pageout pol os = some (pg, os')) :
    os'.queue.length < os.queue.length := by
  obtain ⟨_, hq, k, hk, _, h2⟩ := pageout_takes pol _ _ _ h
  rw [h2]
  simp only [takePage, List.length_drop]
  have := List.length_pos.mpr hq
  omega

theorem flush_some (pol : OggPolicy) (os os' : ogg_stream_state) (pg : ogg_page)
    (h : ogg_stream_flush pol os = some (pg, os')) :
    os'.queue.length < os.queue.length := by
  obtain ⟨_, hq, k, hk, _, h2⟩ := flush_takes pol _ _ _ h
  rw [h2]
  simp only [takePage, List.length_drop]
  have := List.length_pos.mpr hq
  omega

/-- Function `pageoutLoop` ends because `ogg_stream_pageout` returns 0. -/
theorem pageoutLoopN_done (pol : OggPolicy) (n : Nat) (st : State)
    (hn : st.os.queue.length ≤ n) :
    ogg_stream_pageout pol (pageoutLoopN pol n st).os = none ∧
    (pageoutLoopN pol n st).os.queue.length ≤ st.os.queue.length := by
  induction n generalizing st with
  | zero =>
    simp only [pageoutLoopN, ogg_stream_pageout]
    have : st.os.queue = [] := List.length_eq_zero.mp (by omega)
    simp [this]
  | succ n ih =>
    unfold pageoutLoopN
    cases h : ogg_stream_pageout pol st.os with
    | none => exact ⟨h, Nat.le_refl _⟩
    | some r =>
      obtain ⟨pg, os⟩ := r
      have hlt := pageout_some pol _ _ _ h
      simp only
      have := ih { st with os := os, og := pg, out := st.out ++ [pg] } (by simp only; omega)
      exact ⟨this.1, by have := this.2; simp only at this; omega⟩

/-- Function `flush` ends because `ogg_stream_flush` returns 0. -/
theorem flushN_done (pol : OggPolicy) (n : Nat) (st : State) (hn : st.os.queue.length ≤ n) :
    ogg_stream_flush pol (flushN pol n st).os = none := by
  induction n generalizing st with
  | zero =>
    simp only [flushN, ogg_stream_flush]
    have : st.os.queue = [] := List.length_eq_zero.mp (by omega)
    simp [this]
  | succ n ih =>
    unfold flushN
    cases h : ogg_stream_flush pol st.os with
    | none => exact h
    | some r =>
      obtain ⟨pg, os⟩ := r
      have hlt := flush_some pol _ _ _ h
      simp only
      exact ih { st with os := os, og := pg, out := st.out ++ [pg] } (by simp only; omega)

/-- The closing loop of `main` ends because `ogg_stream_flush` returns 0. -/
theorem finalFlushN_done (pol : OggPolicy) (n : Nat) (st : State)
    (hn : st.os.queue.length ≤ n) :
    ogg_stream_flush pol (finalFlushN pol n st).os = none := by
  induction n generalizing st with
  | zero =>
    simp only [finalFlushN, ogg_stream_flush]
    have : st.os.queue = [] := List.length_eq_zero.mp (by omega)
    simp [this]
  | succ n ih =>
    unfold finalFlushN
    cases h : ogg_stream_flush pol st.os with
    | none => exact h
    | some r =>
      obtain ⟨pg, os⟩ := r
      have hlt := flush_some pol _ _ _ h
      simp only
      apply ih
      have := (pageoutLoopN_done pol _
        { st with os := os, og := pg, flushed := st.flushed ++ [pg] } (Nat.le_refl _)).2
      simp only [pageoutLoop]
      simp only at this
      omega
theorem received_packetout (ctx : Option th_enc_ctx) (last : Bool) (op : ogg_packet) :
    received (th_encode_packetout ctx last op).2.2 = received ctx := by
  unfold th_encode_packetout
  split
  · rfl
  · split
    · rfl
    · rfl

theorem received_flushheader (ctx : Option th_enc_ctx) (op : ogg_packet) :
    received (th_encode_flushheader ctx op).2.2 = received ctx := by
  unfold th_encode_flushheader
  split
  · rfl
  · split
    · rfl
    · rfl

/-- A codec context takes the frame buffer it is given. -/
theorem received_ycbcr_in (c : th_enc_ctx) (img : Option Nat) :
    received (th_encode_ycbcr_in (some c) img) = c.received ++ [img] := by
  unfold th_encode_ycbcr_in
  simp only
  split
  · rfl
  · rfl

theorem pageoutLoopN_encoded (pol : OggPolicy) (n : Nat) (st : State) :
    (pageoutLoopN pol n st).encoded = st.encoded := by
  unfold State.encoded
  rw [pageoutLoopN_ctx]

theorem flushN_encoded (pol : OggPolicy) (n : Nat) (st : State) :
    (flushN pol n st).encoded = st.encoded := by
  unfold State.encoded
  rw [flushN_ctx]

theorem packetLoopN_encoded (pol : OggPolicy) (last : Bool) (n : Nat) (st st' : State)
    (h : packetLoopN pol last n st = Run.ok st') : st'.encoded = st.encoded := by
  induction n generalizing st with
  | zero => simp [packetLoopN] at h
  | succ n ih =>
    unfold packetLoopN at h
    simp only at h
    split_ifs at h with h1 h2 h3
    · cases h
      exact received_packetout st.ctx last st.op
    · exact (ih _ h).trans ((pageoutLoopN_encoded pol _ _).trans
        (received_packetout st.ctx last st.op))

/-- The packet loop throws when there is no codec context. -/
theorem packetLoopN_ctx_some (pol : OggPolicy) (last : Bool) (n : Nat) (st st' : State)
    (h : packetLoopN pol last n st = Run.ok st') : st.ctx ≠ none := by
  intro hc
  cases n with
  | zero => simp [packetLoopN] at h
  | succ n => simp [packetLoopN, hc, th_encode_packetout, TH_EFAULT] at h

theorem outputHeader2N_encoded (pol : OggPolicy) (n : Nat) (st st' : State)
    (h : outputHeader2N pol n st = Run.ok st') : st'.encoded = st.encoded := by
  induction n generalizing st with
  | zero => simp [outputHeader2N] at h
  | succ n ih =>
    unfold outputHeader2N at h
    simp only at h
    split_ifs at h with h1 h2
    · cases h
      exact received_flushheader st.ctx st.op
    · exact (ih (packetin pol _).2 h).trans (received_flushheader st.ctx st.op)

theorem outputHeader1_encoded (pol : OggPolicy) (st : State) :
    (outputHeader1 pol st).encoded = st.encoded := by
  unfold outputHeader1
  exact (flushN_encoded pol _ _).trans (received_flushheader st.ctx st.op)

theorem outputHeader2_encoded (pol : OggPolicy) (st st' : State)
    (h : outputHeader2 pol st = Run.ok st') : st'.encoded = st.encoded := by
  unfold outputHeader2 at h
  split at h
  · rename_i s hs
    cases h
    exact (flushN_encoded pol _ s).trans (outputHeader2N_encoded _ _ _ _ hs)
  · rename_i r hr
    rw [h] at hr
    exact absurd rfl (hr st')

/-- After the first-frame branch the codec context is the new one, which has
received nothing yet. -/
theorem firstFrame_encoded (env : Env)
    (hfresh : ∀ ti c, env.th_encode_alloc ti = some c → c.received = [])
    (jf : Jpeg) (st st' : State) (h : firstFrame env jf st = Run.ok st') :
    st'.encoded = [] := by
  unfold firstFrame at h
  simp only at h
  split at h
  · cases h
  · rename_i thpixf hpf
    cases hc : env.th_encode_alloc (mkInfo env.fps jf.w jf.h thpixf) with
    | none => simp [hc] at h
    | some c =>
      rw [hc] at h
      simp only [reduceCtorEq, if_false] at h
      rw [outputHeader2_encoded env.pol _ _ h, outputHeader1_encoded]
      exact hfresh _ c hc

theorem checkFrame_encoded (env : Env)
    (hfresh : ∀ ti c, env.th_encode_alloc ti = some c → c.received = [])
    (jf : Jpeg) (st st' : State) (hinv : st.w = 0 → st.encoded = [])
    (h : checkFrame env jf st = Run.ok st') : st'.encoded = st.encoded := by
  by_cases hw : st.w = 0
  · unfold checkFrame at h
    rw [if_pos hw] at h
    rw [hinv hw, firstFrame_encoded env hfresh jf st st' h]
  · have := checkFrame_later env jf st st' hw h
    subst this
    rfl

theorem pageoutLoopN_buff (pol : OggPolicy) (n : Nat) (st : State) :
    (pageoutLoopN pol n st).buff = st.buff := by
  induction n generalizing st with
  | zero => rfl
  | succ n ih =>
    unfold pageoutLoopN
    split
    · rfl
    · exact (ih _).trans rfl

theorem packetLoopN_buff (pol : OggPolicy) (last : Bool) (n : Nat) (st st' : State)
    (h : packetLoopN pol last n st = Run.ok st') : st'.buff = st.buff := by
  induction n generalizing st with
  | zero => simp [packetLoopN] at h
  | succ n ih =>
    unfold packetLoopN at h
    simp only at h
    split_ifs at h with h1 h2 h3
    · cases h
      rfl
    · exact (ih _ h).trans (pageoutLoopN_buff pol _ _)

theorem frame_tail_encoded (env : Env) (idx : Nat) (st st' : State)
    (h : (match packetLoop env.pol false
            { st with buff := some idx, ctx := th_encode_ycbcr_in st.ctx (some idx) } with
          | Run.ok s => Run.ok { s with progress := s.progress ++ [s.i] }
          | r => r) = Run.ok st') :
    st'.encoded = st.encoded ++ [some idx] ∧ st'.buff = some idx := by
  split at h
  · rename_i s hs
    cases h
    have hc := packetLoopN_ctx_some _ _ _ _ _ hs
    have he := packetLoopN_encoded _ _ _ _ _ hs
    have hb := packetLoopN_buff _ _ _ _ _ hs
    refine ⟨?_, hb⟩
    show s.encoded = _
    rw [he]
    have hc2 : th_encode_ycbcr_in st.ctx (some idx) ≠ none := hc
    show received (th_encode_ycbcr_in st.ctx (some idx)) = received st.ctx ++ [some idx]
    cases hctx : st.ctx with
    | none =>
      rw [hctx] at hc2
      exact absurd rfl hc2
    | some c =>
      rw [received_ycbcr_in]
      rfl
  · rename_i r hr
    rw [h] at hr
    exact absurd rfl (hr st')

/-- A frame that passes was handed to the codec: the codec context has
received the frame buffer with this image in it. -/
theorem frame_encoded (env : Env)
    (hfresh : ∀ ti c, env.th_encode_alloc ti = some c → c.received = [])
    (idx : Nat) (jf : Jpeg) (st st' : State) (hinv : st.w = 0 → st.encoded = [])
    (h : frame env idx jf st = Run.ok st') :
    st'.encoded = st.encoded ++ [some idx] ∧ st'.buff = some idx := by
  unfold frame at h
  split at h
  · rename_i s hs
    have h1 := checkFrame_encoded env hfresh jf st s hinv hs
    rw [← h1]
    exact frame_tail_encoded env idx s st' h
  · rename_i r hr
    rw [h] at hr
    exact absurd rfl (hr st')

/-- The frame loop from an index `a` that is not 0: it hands the images `a`,
`a + 1`, ... to the codec, up to the first index whose file cannot be opened. -/
theorem mainLoopN_scan (env : Env) (hw : ∀ jf, some jf ∈ env.files → jf.w ≠ 0)
    (hfresh : ∀ ti c, env.th_encode_alloc ti = some c → c.received = [])
    (n : Nat) (st st' : State) (ha : 1 ≤ st.i) (hinv : st.w = 0 → st.encoded = [])
    (h : mainLoopN env n st = Run.ok st') :
    ∃ e, st.i ≤ e ∧ env.file e = none ∧ (∀ j, st.i ≤ j → j < e → env.file j ≠ none) ∧
      st'.encoded = st.encoded ++ (List.range' st.i (e - st.i)).map some ∧ st'.i = e + 1 ∧
      (e = st.i → st'.ctx = st.ctx ∧ st'.buff = st.buff) ∧
      (st.i < e → st'.buff = some (e - 1)) := by
  induction n generalizing st with
  | zero => simp [mainLoopN] at h
  | succ n ih =>
    unfold mainLoopN at h
    split_ifs at h with h1
    simp only at h
    split at h
    · rename_i hnone
      rw [if_neg (by omega)] at h
      cases h
      refine ⟨st.i, Nat.le_refl _, hnone, fun j h1 h2 => by omega, ?_, rfl,
        fun _ => ⟨rfl, rfl⟩, fun hlt => absurd hlt (Nat.lt_irrefl _)⟩
      show received st.ctx = received st.ctx ++ _
      simp
    · rename_i jf hjf
      split at h
      · rename_i s hs
        have he := frame_encoded env hfresh st.i jf { st with i := st.i + 1 } s hinv hs
        have hk := frame_keep env _ jf _ s hs
        have hi : s.i = st.i + 1 := hk.1
        have hws : s.w ≠ 0 := by
          by_cases hw0 : st.w = 0
          · rw [(hk.2.2 hw0).1]
            exact hw jf (file_mem env _ jf hjf)
          · rw [(hk.2.1 hw0).2.1]
            exact hw0
        obtain ⟨e, e1, e2, e3, e4, e5, e6, e7⟩ := ih s (by omega) (fun h0 => absurd h0 hws) h
        rw [hi] at e1 e3 e4 e6 e7
        refine ⟨e, by omega, e2, ?_, ?_, e5, fun heq => by omega, fun _ => ?_⟩
        · intro j hj1 hj2
          by_cases hj : j = st.i
          · rw [hj, hjf]
            simp
          · exact e3 j (by omega) hj2
        · rw [e4, he.1]
          simp only [List.append_assoc]
          congr 1
          have : e - st.i = (e - (st.i + 1)) + 1 := by omega
          rw [this, List.range'_succ]
          rfl
        · by_cases heq : e = st.i + 1
          · rw [(e6 heq).2, he.2, heq]
            rfl
          · exact e7 (by omega)
      · rename_i r hr
        rw [h] at hr
        exact absurd rfl (hr st')

theorem finalFlushN_ctx (pol : OggPolicy) (n : Nat) (st : State) :
    (finalFlushN pol n st).ctx = st.ctx := by
  induction n generalizing st with
  | zero => rfl
  | succ n ih =>
    unfold finalFlushN
    split
    · rfl
    · exact (ih _).trans (pageoutLoopN_ctx pol _ _)

/-- The end of `main` hands the frame buffer to the codec once more. -/
theorem finish_encoded (env : Env) (st st' : State) (h : finish env st = Run.ok st') :
    st.ctx ≠ none ∧ st'.encoded = st.encoded ++ [st.buff] := by
  unfold finish at h
  simp only at h
  split at h
  · rename_i s hs
    cases h
    have hc := packetLoopN_ctx_some _ _ _ _ _ hs
    have he := packetLoopN_encoded _ _ _ _ _ hs
    have hc2 : th_encode_ycbcr_in st.ctx st.buff ≠ none := hc
    have hne : st.ctx ≠ none := by
      intro hn
      rw [hn] at hc2
      exact absurd rfl hc2
    refine ⟨hne, ?_⟩
    show received (finalFlushN env.pol s.os.queue.length s).ctx = _
    rw [finalFlushN_ctx]
    show s.encoded = _
    rw [he]
    show received (th_encode_ycbcr_in st.ctx st.buff) = received st.ctx ++ [st.buff]
    cases hctx : st.ctx with
    | none => exact absurd hctx hne
    | some c =>
      rw [received_ycbcr_in]
      rfl
  · rename_i r hr
    rw [h] at hr
    exact absurd rfl (hr st')

/-- C7: when the frame loop of `main` ends normally, the frame buffers that the
codec context has received through `th_encode_ycbcr_in` are those of the
images `s`, `s + 1`, ..., `e - 1` in this order, where `s` is 0 when the file of
index 0 can be opened and 1 when not, and `e` is the least index from 1 on
whose file cannot be opened.  A missing file of index 0 only moves the start
to index 1, a missing file of any other index ends the loop.  The end of
`main` then hands the frame buffer to the codec once more, with the last image
`e - 1` still in it, so a run of `main` that returns has encoded the images
`s`, ..., `e - 1` and the last one a second time.  Assumed: no image has the
width 0 (the tool uses `w == 0` as its first-frame test) and a codec context
returned by `th_encode_alloc` has received nothing yet. -/
theorem scan_encodes_range (env : Env) (st : State)
    (hw : ∀ jf, some jf ∈ env.files → jf.w ≠ 0)
    (hfresh : ∀ ti c, env.th_encode_alloc ti = some c → c.received = [])
    (h : mainLoopN env (env.files.length + 2) st0 = Run.ok st) :
    ∃ e, 1 ≤ e ∧ env.file e = none ∧ (∀ j, 1 ≤ j → j < e → env.file j ≠ none) ∧
      st.encoded = (List.range' (if env.file 0 = none then 1 else 0)
        (e - (if env.file 0 = none then 1 else 0))).map some ∧
      st.i = e + 1 ∧
      ∀ st', main env = Run.ok st' →
        (if env.file 0 = none then 1 else 0) < e ∧
        st'.encoded = st.encoded ++ [some (e - 1)] := by
  have hmain : ∀ st', main env = Run.ok st' →
      st.ctx ≠ none ∧ st'.encoded = st.encoded ++ [st.buff] := by
    intro st' hm
    unfold main at hm
    split_ifs at hm
    rw [h] at hm
    exact finish_encoded env st st' hm
  have hfuel : env.files.length + 2 = (env.files.length + 1) + 1 := rfl
  rw [hfuel] at h
  unfold mainLoopN at h
  split_ifs at h with h1
  simp only at h
  split at h
  · rename_i hnone
    have h0 : env.file 0 = none := hnone
    rw [if_pos (by rfl)] at h
    have hinv0 : ({ st0 with i := st0.i + 1 } : State).w = 0 →
        ({ st0 with i := st0.i + 1 } : State).encoded = [] := fun _ => rfl
    obtain ⟨e, e1, e2, e3, e4, e5, e6, e7⟩ := mainLoopN_scan env hw hfresh _
      { st0 with i := st0.i + 1 } st (Nat.le_refl _) hinv0 h
    refine ⟨e, e1, e2, e3, ?_, e5, ?_⟩
    · rw [if_pos h0, e4]
      rfl
    · intro st' hm
      obtain ⟨m1, m2⟩ := hmain st' hm
      rw [if_pos h0]
      have hlt : 1 < e := by
        by_contra hge
        have heq : e = ({ st0 with i := st0.i + 1 } : State).i := by
          show e = 0 + 1
          have : 0 + 1 ≤ e := e1
          omega
        exact m1 (e6 heq).1
      exact ⟨hlt, by rw [m2, e7 hlt]⟩
  · rename_i jf hjf
    have h0 : env.file 0 ≠ none := by
      have : env.file 0 = some jf := hjf
      rw [this]
      simp
    split at h
    · rename_i s hs
      have hinv0 : ({ st0 with i := st0.i + 1 } : State).w = 0 →
          ({ st0 with i := st0.i + 1 } : State).encoded = [] := fun _ => rfl
      have he := frame_encoded env hfresh st0.i jf { st0 with i := st0.i + 1 } s hinv0 hs
      have hk := frame_keep env _ jf _ s hs
      have hi1 : s.i = 1 := hk.1
      have hws : s.w ≠ 0 := by
        rw [(hk.2.2 rfl).1]
        exact hw jf (file_mem env _ jf hjf)
      obtain ⟨e, e1, e2, e3, e4, e5, e6, e7⟩ := mainLoopN_scan env hw hfresh _ s st
        (by rw [hi1]) (fun h0 => absurd h0 hws) h
      rw [hi1] at e1 e3 e4 e6 e7
      refine ⟨e, e1, e2, e3, ?_, e5, ?_⟩
      · rw [if_neg h0, e4, he.1]
        have : e - 0 = (e - 1) + 1 := by omega
        rw [this, List.range'_succ]
        rfl
      · intro st' hm
        obtain ⟨m1, m2⟩ := hmain st' hm
        rw [if_neg h0]
        refine ⟨by omega, ?_⟩
        rw [m2]
        by_cases heq : e = 1
        · rw [(e6 heq).2, he.2, heq]
          rfl
        · rw [e7 (by omega)]
    · rename_i r hr
      rw [h] at hr
      exact absurd rfl (hr st)

/-- Witness for C7: no file of index 0, files of the indices 1 and 2. -/
theorem scan_encodes_range_witness :
    ∃ st, mainLoopN (demoEnv [none, some img, some img]) 5 st0 = Run.ok st ∧
      st.encoded = [some 1, some 2] ∧
      (∃ st', main (demoEnv [none, some img, some img]) = Run.ok st' ∧
        st'.encoded = [some 1, some 2, some 2]) ∧
      ∃ e, 1 ≤ e ∧ (demoEnv [none, some img, some img]).file e = none ∧
        (∀ j, 1 ≤ j → j < e → (demoEnv [none, some img, some img]).file j ≠ none) ∧
        st.encoded = (List.range' (if (demoEnv [none, some img, some img]).file 0 = none
            then 1 else 0)
          (e - (if (demoEnv [none, some img, some img]).file 0 = none then 1 else 0))).map
            some ∧
        st.i = e + 1 ∧
        ∀ st', main (demoEnv [none, some img, some img]) = Run.ok st' →
          (if (demoEnv [none, some img, some img]).file 0 = none then 1 else 0) < e ∧
          st'.encoded = st.encoded ++ [some (e - 1)] :=
  ⟨_, rfl, by decide, ⟨_, rfl, by decide⟩,
    scan_encodes_range (demoEnv [none, some img, some img]) _
      (by
        intro jf h
        simp only [demoEnv, List.mem_cons, Option.some.injEq, reduceCtorEq, false_or] at h
        have : jf = img := by
          rcases h with h | h | h
          · exact h
          · exact h
          · simp at h
        subst this
        decide)
      (by
        intro ti c h
        simp only [demoEnv, Option.some.injEq] at h
        subst h
        rfl)
      rfl⟩
end jpeg2theora

namespace theora2jpeg

theorem fateSpec_append (sel : Option Int) (a b : List ogg_page) :
    fateSpec sel (a ++ b) = fateSpec sel a ++ fateSpec (selAfter sel a) b := by
  induction a generalizing sel with
  | nil => cases sel <;> simp [fateSpec, selAfter]
  | cons pg rest ih =>
    cases sel with
    | none =>
      by_cases hb : pg.bos = true
      · simp [fateSpec, selAfter, hb, ih]
      · simp [fateSpec, selAfter, hb, ih]
    | some s => simp [fateSpec, selAfter, ih]

theorem selAfter_append (sel : Option Int) (a b : List ogg_page) :
    selAfter sel (a ++ b) = selAfter (selAfter sel a) b := by
  induction a generalizing sel with
  | nil => cases sel <;> simp [selAfter]
  | cons pg rest ih =>
    cases sel with
    | none =>
      by_cases hb : pg.bos = true
      · simp [selAfter, hb, ih]
      · simp [selAfter, hb, ih]
    | some s => simp [selAfter, ih]

theorem fateSpec_fst (sel : Option Int) (a : List ogg_page) :
    (fateSpec sel a).map Prod.fst = a := by
  induction a generalizing sel with
  | nil => cases sel <;> simp [fateSpec]
  | cons pg rest ih =>
    cases sel with
    | none =>
      by_cases hb : pg.bos = true
      · simp [fateSpec, hb, ih]
      · simp [fateSpec, hb, ih]
    | some s => simp [fateSpec, ih]

theorem submitted_append (sel : Option Int) (a b : List ogg_page) :
    submitted sel (a ++ b) = submitted sel a ++ submitted (selAfter sel a) b := by
  simp [submitted, fateSpec_append]

theorem grow_refl (st st' : State) (hc : Consistent st) (ho : st'.os = st.os)
    (ht : st'.theoraStream = st.theoraStream) (hl : st'.log = st.log)
    (hi : itemsAhead st' = itemsAhead st) : Grow st st' := by
  refine ⟨?_, [], ?_, ?_, ?_, ?_⟩
  · intro s hs
    rw [ho] at hs
    rw [ht]
    exact hc s hs
  · simp [hi]
  · cases hsel : selected st <;> simp [fateSpec, hl]
  · cases hsel : selected st <;> simp [selAfter, selected, ho, ← hsel]
  · cases hsel : selected st <;> simp [submitted, fateSpec, packetsOf, queuePackets, ho]

theorem grow_trans (a b c : State) (h1 : Grow a b) (h2 : Grow b c) : Grow a c := by
  obtain ⟨_, t1, i1, l1, s1, q1⟩ := h1
  obtain ⟨hc, t2, i2, l2, s2, q2⟩ := h2
  refine ⟨hc, t1 ++ t2, ?_, ?_, ?_, ?_⟩
  · rw [List.append_assoc, i2, i1]
  · rw [l2, l1, List.filterMap_append, fateSpec_append, s1, List.append_assoc]
  · rw [s2, s1, List.filterMap_append, selAfter_append]
  · rw [q2, q1, List.filterMap_append, submitted_append, s1, packetsOf, packetsOf, packetsOf]
    simp

/-- What `handlePage` does with the page in `og`: the page is logged with the
fate of `fateSpec`, and its packets go into the queue when it is submitted. -/
theorem handlePage_grow (st : State) (hc : Consistent st) :
    (∀ st', handlePage st = Fate.again st' →
      st'.oy = st.oy ∧ st'.input = st.input ∧
      Consistent st' ∧ st'.log = st.log ++ fateSpec (selected st) [st.og] ∧
      selected st' = selAfter (selected st) [st.og] ∧
      queuePackets st' = queuePackets st ++ packetsOf (submitted (selected st) [st.og])) ∧
    (∀ b st', handlePage st = Fate.leave (Run.ok (b, st')) →
      st'.oy = st.oy ∧ st'.input = st.input ∧
      Consistent st' ∧ st'.log = st.log ++ fateSpec (selected st) [st.og] ∧
      selected st' = selAfter (selected st) [st.og] ∧
      queuePackets st' = queuePackets st ++ packetsOf (submitted (selected st) [st.og])) := by
  unfold handlePage submitPage ogg_page_bos ogg_page_serialno
  cases hos : st.os with
  | none =>
    by_cases hb : st.og.bos = true
    · simp [hb, ogg_stream_pagein, ogg_stream_init, selected, hos, fateSpec, selAfter, Consistent,
        queuePackets, submitted, packetsOf]
    · by_cases hs : st.og.serialno = st.theoraStream
      · simp [hb, hs, ogg_stream_pagein, hos]
      · simp [hb, hs, hos, selected, fateSpec, selAfter, Consistent, queuePackets, submitted,
          packetsOf]
  | some s =>
    have hcs : s.serialno = st.theoraStream := hc s hos
    by_cases hb : st.og.bos = true
    · simp [hb, hos, selected, fateSpec, selAfter, Consistent, queuePackets, submitted, packetsOf]
      exact hcs
    · by_cases hs : st.og.serialno = st.theoraStream
      · simp [hb, hs, ogg_stream_pagein, hos, hcs, selected, fateSpec, selAfter, Consistent,
          queuePackets, submitted, packetsOf]
      · simp [hb, hs, hos, selected, fateSpec, selAfter, Consistent, hcs, queuePackets, submitted,
          packetsOf]

theorem getPageN_grow (n : Nat) (st : State) (b : Bool) (st' : State) (hc : Consistent st)
    (h : getPageN n st = Run.ok (b, st')) : Grow st st' := by
  induction n generalizing st with
  | zero => simp [getPageN] at h
  | succ n ih =>
    unfold getPageN at h
    cases hoy : st.oy with
    | nil =>
      simp only [ogg_sync_pageout, hoy, le_refl, if_true, readFile] at h
      cases hin : st.input with
      | nil =>
        simp only [hin, if_true] at h
        cases h
        exact grow_refl st _ hc rfl rfl rfl (by simp [itemsAhead, hoy, hin])
      | cons chunk rest =>
        simp only [hin, Bool.true_eq_false, if_false] at h
        have hg := grow_refl st { st with oy := [] ++ chunk, input := rest } hc rfl rfl rfl
          (by simp [itemsAhead, hoy, hin])
        exact grow_trans st _ st' hg (ih _ hg.1 h)
    | cons it rest =>
      cases it with
      | junk =>
        simp only [ogg_sync_pageout, hoy, readFile] at h
        rw [if_pos (by decide)] at h
        have hj : Grow st { st with oy := rest } := by
          refine ⟨fun s hs => hc s hs, [SyncItem.junk], ?_, ?_, ?_, ?_⟩
          · simp [itemsAhead, hoy]
          · cases hsel : selected st <;> simp [pageOf, fateSpec]
          · cases hsel : selected st <;> simp [pageOf, selAfter, selected, ← hsel]
          · cases hsel : selected st <;> simp [pageOf, submitted, fateSpec, packetsOf, queuePackets]
        cases hin : st.input with
        | nil =>
          simp only [hin, if_true] at h
          cases h
          exact grow_trans st _ _ hj (grow_refl _ _ hj.1 rfl rfl rfl (by simp [itemsAhead, hin]))
        | cons chunk rest2 =>
          simp only [hin, Bool.true_eq_false, if_false] at h
          have hg : Grow { st with oy := rest } { st with oy := rest ++ chunk, input := rest2 } :=
            grow_refl _ _ hj.1 rfl rfl rfl (by simp [itemsAhead, hin])
          have hg2 := grow_trans st _ _ hj hg
          exact grow_trans st _ st' hg2 (ih _ hg2.1 h)
      | page pg no =>
        simp only [ogg_sync_pageout, hoy] at h
        rw [if_neg (by decide), if_pos trivial] at h
        have hc1 : Consistent { st with og := pg, og_pageno := no, oy := rest } :=
          fun s hs => hc s hs
        have hp := handlePage_grow { st with og := pg, og_pageno := no, oy := rest } hc1
        have hsel : selected { st with og := pg, og_pageno := no, oy := rest } = selected st := rfl
        have hqp : queuePackets { st with og := pg, og_pageno := no, oy := rest }
            = queuePackets st := rfl
        split at h
        · rename_i s hs
          obtain ⟨e1, e2, q1, q2, q3, q4⟩ := hp.1 s hs
          have hg : Grow st s := by
            refine ⟨q1, [SyncItem.page pg no], ?_, ?_, ?_, ?_⟩
            · simp [itemsAhead, hoy, e1, e2]
            · simpa [pageOf, hsel] using q2
            · simpa [pageOf, hsel] using q3
            · simpa [pageOf, hsel, hqp] using q4
          exact grow_trans st _ st' hg (ih s q1 h)
        · rename_i r hr
          subst h
          obtain ⟨e1, e2, q1, q2, q3, q4⟩ := hp.2 b st' hr
          refine ⟨q1, [SyncItem.page pg no], ?_, ?_, ?_, ?_⟩
          · simp [itemsAhead, hoy, e1, e2]
          · simpa [pageOf, hsel] using q2
          · simpa [pageOf, hsel] using q3
          · simpa [pageOf, hsel, hqp] using q4

theorem getPage_grow (st : State) (b : Bool) (st' : State) (hc : Consistent st)
    (h : getPage st = Run.ok (b, st')) : Grow st st' :=
  getPageN_grow _ st b st' hc h

theorem getPages_grow (n : Nat) (st st' : State) (hc : Consistent st)
    (h : getPages n st = Run.ok st') : Grow st st' := by
  induction n generalizing st with
  | zero =>
    simp only [getPages, Run.ok.injEq] at h
    subst h
    exact grow_refl st _ hc rfl rfl rfl rfl
  | succ n ih =>
    unfold getPages at h
    split at h
    · rename_i s hs
      have h1 := getPage_grow st true s hc hs
      exact grow_trans st s st' h1 (ih s h1.1 h)
    · rename_i s hs
      cases h
      exact getPage_grow st false _ hc hs
    · cases h
    · cases h

/-- While no stream is selected, no page is submitted. -/
theorem fateSpec_none (pages : List ogg_page) (h : selAfter none pages = none) :
    ∀ e, e ∈ fateSpec none pages → e.2 = false := by
  induction pages with
  | nil => simp [fateSpec]
  | cons pg rest ih =>
    by_cases hb : pg.bos = true
    · exfalso
      simp only [selAfter, hb, if_true] at h
      have : ∀ l : List ogg_page, selAfter (some pg.serialno) l = some pg.serialno := by
        intro l
        induction l with
        | nil => rfl
        | cons a l ih2 => simpa [selAfter] using ih2
      rw [this] at h
      cases h
    · simp only [selAfter, hb, Bool.false_eq_true, if_false] at h
      intro e he
      simp only [fateSpec, hb, Bool.false_eq_true, if_false, List.mem_cons] at he
      rcases he with he | he
      · rw [he]
      · exact ih h e he

/-- C3 as amended: however often `getPage` is called on whatever input, as long
as it returns, the pages in the log are the pages among the items taken from
the input, in order, and the fate of each is the one of `fateSpec`: the first
beginning-of-stream page selects its stream and is submitted; from then on a
page is submitted exactly when its serial number is the selected one and it is
not a beginning-of-stream page, and discarded otherwise.  The stream state
exists once a stream is selected; it carries the selected serial number, as
does `theoraStream`, and its queue holds the packets of exactly the pages
logged as submitted, in order.  While there is no stream state no page is
logged as submitted. -/
theorem getPage_selects_first_stream (env : Env) (n : Nat) (st : State)
    (h : getPages n (st0 env) = Run.ok st) :
    (∃ taken, taken ++ itemsAhead st = env.input.flatten ∧
      taken.filterMap pageOf = st.log.map Prod.fst) ∧
    st.log = fateSpec none (st.log.map Prod.fst) ∧
    selected st = selAfter none (st.log.map Prod.fst) ∧
    (∀ s, st.os = some s → st.theoraStream = s.serialno ∧
      s.queue.filterMap id = packetsOf ((st.log.filter Prod.snd).map Prod.fst)) ∧
    (st.os = none → ∀ e, e ∈ st.log → e.2 = false) := by
  have hc0 : Consistent (st0 env) := by
    intro s hs
    cases hs
  obtain ⟨hc, taken, hi, hl, hs, hq⟩ := getPages_grow n (st0 env) st hc0 h
  have hl2 : st.log = fateSpec none (taken.filterMap pageOf) := by
    rw [hl]
    simp [st0, selected]
  have hp : st.log.map Prod.fst = taken.filterMap pageOf := by rw [hl2, fateSpec_fst]
  have hs2 : selected st = selAfter none (taken.filterMap pageOf) := hs
  have hq2 : queuePackets st = packetsOf ((st.log.filter Prod.snd).map Prod.fst) := by
    rw [hq, hl2]
    simp [queuePackets, st0, selected, submitted]
  rw [hp]
  refine ⟨⟨taken, ?_, rfl⟩, hl2, hs2, ?_, ?_⟩
  · rw [hi]
    simp [itemsAhead, st0]
  · intro s hos
    refine ⟨(hc s hos).symm, ?_⟩
    rw [← hq2]
    simp [queuePackets, hos]
  · intro hos e he
    rw [hl2] at he
    refine fateSpec_none _ ?_ e he
    rw [← hs2]
    simp [selected, hos]

/-- Witness for C3: five calls of `getPage` on a file with two logical streams,
7 and 8.  The three pages of stream 7 are submitted, the two of stream 8 are
discarded, and the queue holds the four packets of stream 7. -/
theorem getPage_selects_first_stream_witness :
    ∃ st, getPages 5 (st0 (demoEnv none twoStreams)) = Run.ok st ∧
      st.log.map Prod.snd = [true, false, false, true, true] ∧
      st.os = some ⟨7, [some ⟨[100], false, 0⟩, some ⟨[0], false, 0⟩, some ⟨[1], false, 0⟩,
        some ⟨[2], false, 0⟩], 3⟩ ∧
      (∃ taken, taken ++ itemsAhead st = (demoEnv none twoStreams).input.flatten ∧
        taken.filterMap pageOf = st.log.map Prod.fst) ∧
      st.log = fateSpec none (st.log.map Prod.fst) ∧
      selected st = selAfter none (st.log.map Prod.fst) ∧
      (∀ s, st.os = some s → st.theoraStream = s.serialno ∧
        s.queue.filterMap id = packetsOf ((st.log.filter Prod.snd).map Prod.fst)) ∧
      (st.os = none → ∀ e, e ∈ st.log → e.2 = false) :=
  ⟨_, rfl, by decide, by decide,
    getPage_selects_first_stream (demoEnv none twoStreams) 5 _ rfl⟩

/-- C3 as stated fails: stream 7 is selected by the first page; the second page
has serial number 7 as well and is discarded, because it is a
beginning-of-stream page. -/
theorem same_serial_page_discarded :
    ∃ st, getPages 2 (st0 (demoEnv none sameSerialTwice)) = Run.ok st ∧
      selected st = some 7 ∧
      st.log = [(⟨7, true, [⟨[100], false, 0⟩]⟩, true), (⟨7, true, [⟨[101], false, 0⟩]⟩, false)] ∧
      st.log ≠ fateClaimed none (st.log.map Prod.fst) :=
  ⟨_, rfl, by decide, by decide, by decide⟩

theorem sameFrame_refl (st : State) : SameFrame st st := ⟨rfl, rfl, rfl, rfl, rfl⟩

theorem sameFrame_trans {a b c : State} (h1 : SameFrame a b) (h2 : SameFrame b c) :
    SameFrame a c :=
  ⟨h2.1.trans h1.1, h2.2.1.trans h1.2.1, h2.2.2.1.trans h1.2.2.1,
   h2.2.2.2.1.trans h1.2.2.2.1, h2.2.2.2.2.trans h1.2.2.2.2⟩

/-- What `handlePage` does to the fields outside the log when a stream is
selected. -/
theorem handlePage_ready (st : State) (s : ogg_stream_state) (hos : st.os = some s)
    (hs : s.serialno = st.theoraStream) :
    (accepted st.theoraStream [(st.og, st.og_pageno)] = [] ∧
      ∃ st', handlePage st = Fate.again st' ∧ st'.os = st.os ∧ st'.oy = st.oy ∧
        st'.input = st.input ∧ st'.theoraStream = st.theoraStream ∧ st'.op = st.op ∧
        SameFrame st st') ∨
    (accepted st.theoraStream [(st.og, st.og_pageno)] = [(st.og, st.og_pageno)] ∧
      ∃ st', handlePage st = Fate.leave (Run.ok (true, st')) ∧
        st'.os = (ogg_stream_pagein (some s) st.og st.og_pageno).2 ∧ st'.oy = st.oy ∧
        st'.input = st.input ∧ st'.theoraStream = st.theoraStream ∧ st'.op = st.op ∧
        st'.og = st.og ∧ SameFrame st st') := by
  unfold handlePage submitPage ogg_page_bos ogg_page_serialno
  by_cases hb : st.og.bos = true
  · left
    simp [hb, hos, accepted, SameFrame]
  · by_cases hn : st.og.serialno = st.theoraStream
    · right
      simp [hb, hn, hos, accepted, SameFrame, ogg_stream_pagein, hs]
    · left
      simp [hb, hn, hos, accepted, SameFrame]

theorem accepted_cons (t : Int) (pn : ogg_page × Nat) (rest : List (ogg_page × Nat)) :
    accepted t (pn :: rest) = accepted t [pn] ++ accepted t rest := by
  simp only [accepted, List.filter_cons, List.filter_nil]
  split <;> simp

/-- A page of the stream that carries the page sequence number expected goes
into the queue without a mark. -/
theorem pagein_inSeq (s : ogg_stream_state) (pg : ogg_page) (no : Nat) (more : List Nat)
    (hs : pg.serialno = s.serialno) (hseq : inSeq s.pageno (no :: more) = true) :
    (ogg_stream_pagein (some s) pg no).2 =
      some { s with queue := s.queue ++ pg.packets.map some, pageno := (no : Int) + 1 } ∧
    inSeq ((no : Int) + 1) more = true := by
  simp only [inSeq, Bool.and_eq_true, Bool.or_eq_true, decide_eq_true_eq] at hseq
  refine ⟨?_, hseq.2⟩
  have hg : ¬ ((no : Int) ≠ s.pageno ∧ s.pageno ≠ -1) := by
    rintro ⟨h1, h2⟩
    rcases hseq.1 with h | h
    · exact h1 h
    · exact h2 h
  simp [ogg_stream_pagein, hs, hg]

/-- Function `getPage` with a stream selected and pages only ahead: false when
no page of the stream is left, else true with the next page of the stream
submitted and the pages before it discarded. -/
theorem getPageN_ready (n : Nat) (st : State) (s : ogg_stream_state) (hos : st.os = some s)
    (hs : s.serialno = st.theoraStream) (hj : SyncItem.junk ∉ itemsAhead st)
    (hn : inputSize st < n) :
    (accepted st.theoraStream (pagesAhead st) = [] ∧
      ∃ st', getPageN n st = Run.ok (false, st') ∧ st'.os = st.os ∧
        st'.theoraStream = st.theoraStream ∧ st'.op = st.op ∧ SameFrame st st') ∨
    (∃ pg no more, accepted st.theoraStream (pagesAhead st) = (pg, no) :: more ∧
      ∃ st', getPageN n st = Run.ok (true, st') ∧
        st'.os = (ogg_stream_pagein (some s) pg no).2 ∧
        st'.theoraStream = st.theoraStream ∧ st'.op = st.op ∧ SameFrame st st' ∧
        accepted st.theoraStream (pagesAhead st') = more ∧
        SyncItem.junk ∉ itemsAhead st' ∧ inputSize st' < inputSize st ∧
        pg.serialno = st.theoraStream) := by
  induction n generalizing st with
  | zero => omega
  | succ n ih =>
    unfold getPageN
    cases hoy : st.oy with
    | nil =>
      simp only [ogg_sync_pageout, le_refl, if_true, readFile]
      cases hin : st.input with
      | nil =>
        left
        refine ⟨by simp [pagesAhead, itemsAhead, hoy, hin, accepted], ?_⟩
        exact ⟨_, rfl, rfl, rfl, rfl, sameFrame_refl _⟩
      | cons chunk rest =>
        simp only [Bool.true_eq_false, if_false]
        have hitems : itemsAhead { st with oy := [] ++ chunk, input := rest } = itemsAhead st := by
          simp [itemsAhead, hoy, hin]
        have hpages : pagesAhead { st with oy := [] ++ chunk, input := rest } = pagesAhead st := by
          simp only [pagesAhead, hitems]
        have hsize : inputSize { st with oy := [] ++ chunk, input := rest } + 1 = inputSize st := by
          simp [inputSize, hoy, hin]
          omega
        have := ih { st with oy := [] ++ chunk, input := rest } hos hs (by rw [hitems]; exact hj)
          (by omega)
        rw [hpages] at this
        rcases this with ⟨a, st', b1, b2, b3, b4, b5⟩ |
          ⟨pg, no, more, a, st', b1, b2, b3, b4, b5, b6, b7, b8, b9⟩
        · exact Or.inl ⟨a, st', b1, b2, b3, b4, b5⟩
        · exact Or.inr ⟨pg, no, more, a, st', b1, b2, b3, b4, b5, b6, b7, by omega, b9⟩
    | cons it rest =>
      cases it with
      | junk =>
        exfalso
        apply hj
        simp [itemsAhead, hoy]
      | page pg no =>
        simp only [ogg_sync_pageout]
        rw [if_neg (by decide), if_pos trivial]
        have hitems : itemsAhead st = SyncItem.page pg no ::
            itemsAhead { st with og := pg, og_pageno := no, oy := rest } := by
          simp [itemsAhead, hoy]
        have hpages : pagesAhead st =
            (pg, no) :: pagesAhead { st with og := pg, og_pageno := no, oy := rest } := by
          simp only [pagesAhead, hitems, List.filterMap_cons, numbered]
        have hsize : inputSize { st with og := pg, og_pageno := no, oy := rest } + 1
            = inputSize st := by
          simp [inputSize, hoy]
          omega
        have hj1 : SyncItem.junk ∉ itemsAhead { st with og := pg, og_pageno := no, oy := rest } := by
          intro hmem
          apply hj
          rw [hitems]
          exact List.mem_cons_of_mem _ hmem
        rw [hpages, accepted_cons]
        rcases handlePage_ready { st with og := pg, og_pageno := no, oy := rest } s hos hs with
          ⟨a, st1, c1, c2, c3, c4, c5, c6, c7⟩ | ⟨a, st1, c1, c2, c3, c4, c5, c6, c7, c8⟩
        · simp only at a c2 c3 c4 c5 c6
          rw [a, c1]
          simp only [List.nil_append]
          have hit1 : itemsAhead st1
              = itemsAhead { st with og := pg, og_pageno := no, oy := rest } := by
            simp [itemsAhead, c3, c4]
          have hpg1 : pagesAhead st1
              = pagesAhead { st with og := pg, og_pageno := no, oy := rest } := by
            simp only [pagesAhead, hit1]
          have hsz1 : inputSize st1
              = inputSize { st with og := pg, og_pageno := no, oy := rest } := by
            simp [inputSize, c3, c4]
          have := ih st1 (c2.trans hos) (hs.trans c5.symm) (by rw [hit1]; exact hj1) (by omega)
          rw [hpg1, c5] at this
          rcases this with ⟨a, st', b1, b2, b3, b4, b5⟩ |
            ⟨pg2, no2, more, a, st', b1, b2, b3, b4, b5, b6, b7, b8, b9⟩
          · exact Or.inl ⟨a, st', b1, b2.trans c2, b3, b4.trans c6,
              sameFrame_trans (sameFrame_trans (sameFrame_refl _) c7) b5⟩
          · refine Or.inr ⟨pg2, no2, more, a, st', b1, b2, b3, b4.trans c6,
              sameFrame_trans (sameFrame_trans (sameFrame_refl _) c7) b5, b6, b7, by omega, b9⟩
        · simp only at a c2 c3 c4 c5 c6 c7
          rw [a, c1]
          right
          refine ⟨pg, no, _, rfl, st1, rfl, c2, c5, c6, c8, ?_, ?_, ?_, ?_⟩
          · simp [pagesAhead, itemsAhead, c3, c4]
          · intro hmem
            apply hj1
            simpa [itemsAhead, c3, c4] using hmem
          · have : inputSize st1
                = inputSize { st with og := pg, og_pageno := no, oy := rest } := by
              simp [inputSize, c3, c4]
            omega
          · have : accepted st.theoraStream [(pg, no)] = [(pg, no)] := a
            simp only [accepted, List.filter_cons, List.filter_nil] at this
            split at this
            · rename_i hc
              simp only [Bool.and_eq_true, Bool.not_eq_true', decide_eq_true_eq] at hc
              exact hc.2
            · cases this

theorem filterMap_id_map_some (l : List ogg_packet) :
    (l.map some).filterMap id = l := by
  induction l with
  | nil => rfl
  | cons a l ih => simp [ih]

/-- Function `getPacket` with a stream selected, pages only ahead and no data
lost: false when the stream has no packet left, else true with the next packet
in `op`. -/
theorem getPacketN_ready (n : Nat) (st : State) (hr : Ready st) (hn : inputSize st + 1 < n) :
    (packetsAhead st = [] ∧ ∃ st', getPacketN n st = Run.ok (false, st') ∧ SameFrame st st') ∨
    (∃ p rest, packetsAhead st = p :: rest ∧
      ∃ st', getPacketN n st = Run.ok (true, st') ∧ st'.op = p ∧ packetsAhead st' = rest ∧
        Ready st' ∧ SameFrame st st' ∧ st'.theoraStream = st.theoraStream) := by
  induction n generalizing st with
  | zero => omega
  | succ n ih =>
    obtain ⟨⟨s, hos, hs, hnm, hseq⟩, hj⟩ := hr
    unfold getPacketN
    rw [hos]
    simp only
    cases hq : s.queue with
    | cons q qs =>
      cases q with
      | none =>
        exfalso
        apply hnm
        rw [hq]
        exact List.mem_cons_self _ _
      | some q =>
        right
        refine ⟨q, qs.filterMap id ++
          packetsOf ((accepted st.theoraStream (pagesAhead st)).map Prod.fst), ?_, ?_⟩
        · simp [packetsAhead, hos, hq]
        · simp only [ogg_stream_packetout, hq]
          rw [if_neg (by decide)]
          refine ⟨_, rfl, rfl, ?_, ⟨⟨_, rfl, hs, ?_, hseq⟩, hj⟩, sameFrame_refl _, rfl⟩
          · simp [packetsAhead, pagesAhead, itemsAhead]
          · intro hmem
            apply hnm
            rw [hq]
            exact List.mem_cons_of_mem _ hmem
    | nil =>
      simp only [ogg_stream_packetout, hq, if_true]
      have hst : ({ st with op := st.op, os := some s } : State) = st := by
        cases st
        simp only at hos
        simp [hos]
      rw [hst]
      unfold getPage
      rcases getPageN_ready (inputSize st + 1) st s hos hs hj (Nat.lt_succ_self _) with
        ⟨a, st', b1, b2, b3, b4, b5⟩ |
        ⟨pg, no, more, a, st', b1, b2, b3, b4, b5, b6, b7, b8, b9⟩
      · left
        rw [b1]
        exact ⟨by simp [packetsAhead, hos, hq, a, packetsOf], st', rfl, b5⟩
      · rw [b1]
        simp only
        rw [a] at hseq
        obtain ⟨hpi, hseq2⟩ := pagein_inSeq s pg no (more.map Prod.snd) (b9.trans hs.symm) hseq
        rw [hpi] at b2
        have hr' : Ready st' := by
          refine ⟨⟨_, b2, hs.trans b3.symm, ?_, ?_⟩, b7⟩
          · simp [hq]
          · rw [b3, b6]
            exact hseq2
        have hpa : packetsAhead st' = packetsAhead st := by
          simp [packetsAhead, b2, b3, b6, hos, hq, a, packetsOf, filterMap_id_map_some]
        have := ih st' hr' (by omega)
        rw [hpa] at this
        rcases this with ⟨c1, st2, c2, c3⟩ | ⟨p, rest, c1, st2, c2, c3, c4, c5, c6, c7⟩
        · exact Or.inl ⟨c1, st2, c2, sameFrame_trans b5 c3⟩
        · exact Or.inr ⟨p, rest, c1, st2, c2, c3, c4, c5, sameFrame_trans b5 c6, c7.trans b3⟩

theorem getPacket_ready (st : State) (hr : Ready st) :
    (packetsAhead st = [] ∧ ∃ st', getPacket st = Run.ok (false, st') ∧ SameFrame st st') ∨
    (∃ p rest, packetsAhead st = p :: rest ∧
      ∃ st', getPacket st = Run.ok (true, st') ∧ st'.op = p ∧ packetsAhead st' = rest ∧
        Ready st' ∧ SameFrame st st' ∧ st'.theoraStream = st.theoraStream) :=
  getPacketN_ready _ st hr (by omega)

/-- What `handlePage` does with a beginning-of-stream page while there is no
stream state: the stream state is created for its serial number and the page
is submitted. -/
theorem handlePage_start (st : State) (hos : st.os = none) (hb : st.og.bos = true) :
    handlePage st = Fate.leave (Run.ok (true,
      { st with os := some ⟨st.og.serialno, st.og.packets.map some, (st.og_pageno : Int) + 1⟩,
                theoraStream := st.og.serialno,
                log := st.log ++ [(st.og, true)] })) := by
  simp [handlePage, submitPage, ogg_page_bos, ogg_page_serialno, hb, hos, ogg_stream_pagein,
    ogg_stream_init]

/-- Function `getPage` at the start of a well-formed input: the first page
selects its stream and is submitted. -/
theorem getPageN_start (n : Nat) (st : State) (hst : Start st) (hn : inputSize st < n) :
    ∃ st', getPageN n st = Run.ok (true, st') ∧ Ready st' ∧
      packetsAhead st' = packetsAhead st ∧ SameFrame st st' ∧ st'.op = st.op ∧
      st'.theoraStream ≠ -1 ∧ inputSize st' < inputSize st := by
  induction n generalizing st with
  | zero => omega
  | succ n ih =>
    obtain ⟨hos, hwf⟩ := hst
    unfold getPageN
    cases hoy : st.oy with
    | nil =>
      simp only [ogg_sync_pageout, le_refl, if_true, readFile]
      cases hin : st.input with
      | nil =>
        exfalso
        simp [itemsAhead, hoy, hin, WellFormed] at hwf
      | cons chunk rest =>
        simp only [Bool.true_eq_false, if_false]
        have hitems : itemsAhead { st with oy := [] ++ chunk, input := rest } = itemsAhead st := by
          simp [itemsAhead, hoy, hin]
        have hsize : inputSize { st with oy := [] ++ chunk, input := rest } + 1 = inputSize st := by
          simp [inputSize, hoy, hin]
          omega
        have hpa : packetsAhead { st with oy := [] ++ chunk, input := rest } = packetsAhead st := by
          simp [packetsAhead, hos, itemsAhead, hoy, hin]
        obtain ⟨st', b1, b2, b3, b4, b5, b6, b7⟩ :=
          ih { st with oy := [] ++ chunk, input := rest } ⟨hos, by rw [hitems]; exact hwf⟩
            (by omega)
        exact ⟨st', b1, b2, b3.trans hpa, b4, b5, b6, by omega⟩
    | cons it rest =>
      have hitems : itemsAhead st = it :: (rest ++ st.input.flatten) := by
        simp [itemsAhead, hoy]
      rw [hitems] at hwf
      cases it with
      | junk => exact absurd hwf (by simp [WellFormed])
      | page pg no =>
        simp only [WellFormed] at hwf
        obtain ⟨w1, w2, w3, w4⟩ := hwf
        simp only [ogg_sync_pageout]
        rw [if_neg (by decide), if_pos trivial]
        rw [handlePage_start { st with og := pg, og_pageno := no, oy := rest } hos w1]
        simp only
        refine ⟨_, rfl, ⟨⟨_, rfl, rfl, by simp, ?_⟩, ?_⟩, ?_, sameFrame_refl _, rfl, w2, ?_⟩
        · simpa [pagesAhead, itemsAhead] using w4
        · simpa [itemsAhead] using w3
        · have hp : packetsAhead st = streamPackets (itemsAhead st) := by
            unfold packetsAhead
            rw [hos]
          rw [hp, hitems]
          simp [packetsAhead, streamPackets, pagesAhead, itemsAhead, filterMap_id_map_some]
        · simp [inputSize, hoy]

/-- Function `getPacket` at the start of a well-formed input, and later while
no data is lost: false when the stream has no packet left, else true with the
next packet in `op`. -/
theorem getPacket_feed (st : State) (h : Start st ∨ (Ready st ∧ st.theoraStream ≠ -1)) :
    (packetsAhead st = [] ∧ ∃ st', getPacket st = Run.ok (false, st') ∧ SameFrame st st') ∨
    (∃ p rest, packetsAhead st = p :: rest ∧
      ∃ st', getPacket st = Run.ok (true, st') ∧ st'.op = p ∧ packetsAhead st' = rest ∧
        Ready st' ∧ SameFrame st st' ∧ st'.theoraStream ≠ -1) := by
  rcases h with hst | ⟨hr, ht⟩
  · unfold getPacket getPacketN
    have hos := hst.1
    rw [hos]
    simp only [if_true]
    unfold getPage
    have hst2 : ({ st with os := none } : State) = st := by
      cases st
      simp only at hos
      simp [hos]
    obtain ⟨st1, b1, b2, b3, b4, b5, b6, b7⟩ :=
      getPageN_start (inputSize st + 1) st hst (Nat.lt_succ_self _)
    rw [b1]
    simp only
    rcases getPacketN_ready (inputSize st + 1) st1 b2 (by omega) with
      ⟨c1, st2, c2, c3⟩ | ⟨p, rest, c1, st2, c2, c3, c4, c5, c6, c7⟩
    · left
      exact ⟨b3 ▸ c1, st2, c2, sameFrame_trans b4 c3⟩
    · right
      exact ⟨p, rest, b3 ▸ c1, st2, c2, c3, c4, c5, sameFrame_trans b4 c6, by rw [c7]; exact b6⟩
  · rcases getPacket_ready st hr with ⟨c1, st2, c2, c3⟩ | ⟨p, rest, c1, st2, c2, c3, c4, c5, c6, c7⟩
    · exact Or.inl ⟨c1, st2, c2, c3⟩
    · exact Or.inr ⟨p, rest, c1, st2, c2, c3, c4, c5, c6, by rw [c7]; exact ht⟩

/-- Being `Ready` and the packets ahead depend on the stream state, the input
and `theoraStream` only. -/
theorem ready_congr (st st2 : State) (e1 : st2.os = st.os) (e2 : st2.oy = st.oy)
    (e3 : st2.input = st.input) (e4 : st2.theoraStream = st.theoraStream) :
    (Ready st → Ready st2) ∧ packetsAhead st2 = packetsAhead st := by
  have hi : itemsAhead st2 = itemsAhead st := by simp [itemsAhead, e2, e3]
  have hp : pagesAhead st2 = pagesAhead st := by simp only [pagesAhead, hi]
  constructor
  · rintro ⟨⟨s, hos, hs, hnm, hseq⟩, hj⟩
    exact ⟨⟨s, e1.trans hos, hs.trans e4.symm, hnm, by rw [e4, hp]; exact hseq⟩, by rw [hi]; exact hj⟩
  · unfold packetsAhead
    rw [e1, e4, hp, hi]

/-- Function `getNextFrame` when the decoder accepts the packet: the packet in
`op` is decoded, and the result tells whether the stream has another packet. -/
theorem getNextFrame_ready (env : Env) (st : State) (hr : Ready st)
    (hdec : ∀ hist p, 0 ≤ env.codec.th_decode_packetin hist p) :
    (packetsAhead st = [] ∧
      ∃ st', getNextFrame env st = Run.ok (true, st') ∧
        st'.trace = st.trace ++ [Event.decode st.op] ∧ st'.decoded = st.decoded ++ [st.op] ∧
        st'.framesWritten = st.framesWritten) ∨
    (∃ p rest, packetsAhead st = p :: rest ∧
      ∃ st', getNextFrame env st = Run.ok (false, st') ∧ st'.op = p ∧
        packetsAhead st' = rest ∧ Ready st' ∧
        st'.trace = st.trace ++ [Event.decode st.op] ∧ st'.decoded = st.decoded ++ [st.op] ∧
        st'.framesWritten = st.framesWritten) := by
  unfold getNextFrame
  simp only
  rw [if_neg (not_lt.mpr (hdec st.decoded st.op))]
  have key : ∀ st2 : State, st2.os = st.os → st2.oy = st.oy → st2.input = st.input →
      st2.theoraStream = st.theoraStream →
      st2.trace = st.trace ++ [Event.decode st.op] → st2.decoded = st.decoded ++ [st.op] →
      st2.framesWritten = st.framesWritten →
      (packetsAhead st = [] ∧
        ∃ st', (match getPacket st2 with
                | Run.ok (false, st) => Run.ok (true, st)
                | Run.ok (true, st) => Run.ok (false, st)
                | e => e) = Run.ok (true, st') ∧
          st'.trace = st.trace ++ [Event.decode st.op] ∧ st'.decoded = st.decoded ++ [st.op] ∧
          st'.framesWritten = st.framesWritten) ∨
      (∃ p rest, packetsAhead st = p :: rest ∧
        ∃ st', (match getPacket st2 with
                | Run.ok (false, st) => Run.ok (true, st)
                | Run.ok (true, st) => Run.ok (false, st)
                | e => e) = Run.ok (false, st') ∧ st'.op = p ∧
          packetsAhead st' = rest ∧ Ready st' ∧
          st'.trace = st.trace ++ [Event.decode st.op] ∧ st'.decoded = st.decoded ++ [st.op] ∧
          st'.framesWritten = st.framesWritten) := by
    intro st2 e1 e2 e3 e4 e5 e6 e7
    obtain ⟨hr2', hpa⟩ := ready_congr st st2 e1 e2 e3 e4
    have hr2 : Ready st2 := hr2' hr
    rcases getPacket_ready st2 hr2 with ⟨a, st', b1, b2⟩ | ⟨p, rest, a, st', b1, b2, b3, b4, b5, _⟩
    · left
      rw [hpa] at a
      rw [b1]
      exact ⟨a, st', rfl, b2.2.2.2.2.trans e5, b2.2.1.trans e6, b2.2.2.2.1.trans e7⟩
    · right
      rw [hpa] at a
      rw [b1]
      exact ⟨p, rest, a, st', rfl, b2, b3, b4, b5.2.2.2.2.trans e5, b5.2.1.trans e6,
        b5.2.2.2.1.trans e7⟩
  by_cases h1 : env.codec.th_decode_packetin st.decoded st.op = 1
  · rw [if_pos h1]
    exact key _ rfl rfl rfl rfl rfl rfl rfl
  · rw [if_neg h1]
    exact key _ rfl rfl rfl rfl rfl rfl rfl

/-- The frame loop with a bound of `n` frames: it ends normally, having decoded
the first `n` payload packets (all of them when there are fewer), each followed
by the writing of the next output file. -/
theorem frameLoop_trace (env : Env) (n : Nat) (st : State) (hr : Ready st)
    (hdec : ∀ hist p, 0 ≤ env.codec.th_decode_packetin hist p)
    (hfit : ∀ i, ¬ (env.snprintf i % 2 ^ 64).toNat ≥ env.outF_size)
    (hopen : ∀ i, env.outGood i = true) :
    ∃ st', frameLoop env n st = Run.ok st' ∧
      st'.trace = st.trace ++ frameEvents st.framesWritten ((st.op :: packetsAhead st).take n) ∧
      st'.decoded = st.decoded ++ (st.op :: packetsAhead st).take n ∧
      st'.framesWritten = st.framesWritten + ((st.op :: packetsAhead st).take n).length := by
  induction n generalizing st with
  | zero => exact ⟨st, rfl, by simp [frameEvents], by simp, by simp⟩
  | succ n ih =>
    unfold frameLoop
    rcases getNextFrame_ready env st hr hdec with
      ⟨a, st1, b1, b2, b3, b4⟩ | ⟨p, rest, a, st1, b1, b2, b3, b4, b5, b6, b7⟩
    · rw [b1]
      simp only
      rw [if_neg (hfit _), if_neg (by simp [hopen])]
      simp only [if_true]
      refine ⟨_, rfl, ?_, ?_, ?_⟩
      · simp [a, frameEvents, b2, b4]
      · simp [a, b3]
      · simp [a, b4]
    · rw [b1]
      simp only
      rw [if_neg (hfit _), if_neg (by simp [hopen])]
      simp only [Bool.false_eq_true, if_false]
      obtain ⟨hr5', hpa⟩ := ready_congr st1
        { st1 with trace := st1.trace ++ [Event.write st1.framesWritten],
                   framesWritten := st1.framesWritten + 1 } rfl rfl rfl rfl
      obtain ⟨st', c1, c2, c3, c4⟩ := ih _ (hr5' b4)
      rw [hpa, b3] at c2 c3 c4
      simp only [b2] at c2 c3 c4
      refine ⟨st', c1, ?_, ?_, ?_⟩
      · rw [c2, a, b5, b7]
        simp [frameEvents]
      · rw [c3, a, b6]
        simp
      · rw [c4, a, b7]
        simp only [List.take_succ_cons, List.length_cons]
        omega

theorem filesWritten_frameEvents (j : Nat) (ps : List ogg_packet) :
    filesWritten (frameEvents j ps) = List.range' j ps.length := by
  induction ps generalizing j with
  | nil => simp [frameEvents, filesWritten]
  | cons p rest ih =>
    have := ih (j + 1)
    simp only [filesWritten] at this
    simp [frameEvents, filesWritten, List.range'_succ, this]

/-- The header loop of `main` at the start of a well-formed input, and later
while no data is lost: it passes the packets of the stream to
`th_decode_headerin` as `splitHeaders` says and ends at the first payload
packet, which is left in `op`. -/
theorem headerLoopN_feed (env : Env) (ps : List ogg_packet) (n : Nat) (st : State)
    (hdrs payload : List ogg_packet)
    (h : Start st ∨ (Ready st ∧ st.theoraStream ≠ -1))
    (hpa : packetsAhead st = ps)
    (hsplit : splitHeaders env.codec st.headers ps = some (hdrs, payload))
    (hn : ps.length ≤ n) :
    ∃ st', headerLoopN env n st = Run.ok st' ∧ Ready st' ∧ st'.theoraStream ≠ -1 ∧
      st'.headers = hdrs ∧ st'.op :: packetsAhead st' = payload ∧
      st'.decoded = st.decoded ∧ st'.trace = st.trace ∧
      st'.framesWritten = st.framesWritten ∧ st'.buff = st.buff := by
  induction ps generalizing n st with
  | nil => simp [splitHeaders] at hsplit
  | cons p rest ih =>
    cases n with
    | zero => simp at hn
    | succ n =>
      have hn2 : rest.length ≤ n := by simpa using hn
      unfold headerLoopN
      rcases getPacket_feed st h with ⟨a, _⟩ | ⟨p2, rest2, a, st1, b1, b2, b3, b4, b5, b6⟩
      · rw [hpa] at a
        cases a
      · rw [hpa] at a
        simp only [List.cons.injEq] at a
        obtain ⟨ap, ar⟩ := a
        subst ap ar
        rw [b1]
        simp only
        obtain ⟨f1, f2, f3, f4, f5⟩ := b5
        have hrv : env.codec.th_decode_headerin st1.headers st1.op
            = env.codec.th_decode_headerin st.headers p := by rw [b2, f1]
        have hh : st1.headers ++ [st1.op] = st.headers ++ [p] := by rw [b2, f1]
        rw [hrv, hh]
        unfold splitHeaders at hsplit
        have step : splitHeaders env.codec (st.headers ++ [p]) rest = some (hdrs, payload) →
            ∃ st', headerLoopN env n { st1 with headers := st.headers ++ [p] } = Run.ok st' ∧
              Ready st' ∧ st'.theoraStream ≠ -1 ∧ st'.headers = hdrs ∧
              st'.op :: packetsAhead st' = payload ∧ st'.decoded = st.decoded ∧
              st'.trace = st.trace ∧ st'.framesWritten = st.framesWritten ∧
              st'.buff = st.buff := by
          intro hsp
          obtain ⟨g1, g2⟩ := ready_congr st1 { st1 with headers := st.headers ++ [p] }
            rfl rfl rfl rfl
          obtain ⟨st', c1, c2, c3, c4, c5, c6, c7, c8, c9⟩ :=
            ih n { st1 with headers := st.headers ++ [p] } (Or.inr ⟨g1 b4, b6⟩)
              (g2.trans b3) hsp hn2
          exact ⟨st', c1, c2, c3, c4, c5, c6.trans f2, c7.trans f5, c8.trans f4, c9.trans f3⟩
        by_cases h1 : env.codec.th_decode_headerin st.headers p = TH_ENOTFORMAT
        · rw [if_pos h1] at hsplit ⊢
          exact step hsplit
        · rw [if_neg h1] at hsplit ⊢
          by_cases h2 : env.codec.th_decode_headerin st.headers p < 0
          · rw [if_pos h2] at hsplit
            cases hsplit
          · rw [if_neg h2] at hsplit ⊢
            by_cases h3 : env.codec.th_decode_headerin st.headers p = 0
            · rw [if_pos h3] at hsplit ⊢
              simp only [Option.some.injEq, Prod.mk.injEq] at hsplit
              obtain ⟨e1, e2⟩ := hsplit
              obtain ⟨g1, g2⟩ := ready_congr st1 { st1 with headers := st.headers ++ [p] }
                rfl rfl rfl rfl
              refine ⟨_, rfl, g1 b4, b6, e1, ?_, f2, f5, f4, f3⟩
              rw [← e2, g2, b3]
              rw [b2]
            · rw [if_neg h3] at hsplit ⊢
              have hb6 : ¬ ({ st1 with headers := st.headers ++ [p] } : State).theoraStream = -1 :=
                b6
              rw [if_neg hb6]
              exact step hsplit

theorem packetsOf_accepted_length (t : Int) (items : List SyncItem) :
    (packetsOf ((accepted t (items.filterMap numbered)).map Prod.fst)).length
      ≤ packetsOn items := by
  induction items with
  | nil => simp [accepted, packetsOf, packetsOn]
  | cons it rest ih =>
    cases it with
    | junk => simpa [numbered, packetsOn] using ih
    | page pg no =>
      simp only [List.filterMap_cons, numbered]
      have happ : ∀ a b : List ogg_page, packetsOf (a ++ b) = packetsOf a ++ packetsOf b := by
        intro a b
        simp [packetsOf]
      rw [accepted_cons, List.map_append, happ, List.length_append]
      have h1 : (packetsOf (List.map Prod.fst (accepted t [(pg, no)]))).length
          ≤ pg.packets.length := by
        simp only [accepted, List.filter_cons, List.filter_nil]
        split <;> simp [packetsOf]
      have h2 : packetsOn (SyncItem.page pg no :: rest)
          = pg.packets.length + 1 + packetsOn rest := by
        simp [packetsOn]
      rw [h2]
      omega

/-- The stream has no more packets than the bound used for the header loop. -/
theorem streamPackets_length (items : List SyncItem) :
    (streamPackets items).length ≤ packetsOn items := by
  cases items with
  | nil => simp [streamPackets]
  | cons it rest =>
    cases it with
    | junk => simp [streamPackets]
    | page pg no =>
      simp only [streamPackets, List.length_append]
      have h1 := packetsOf_accepted_length pg.serialno rest
      have h2 : packetsOn (SyncItem.page pg no :: rest) = pg.packets.length + 1 + packetsOn rest := by
        simp [packetsOn]
      omega

/-- Function `main` on a well-formed input whose headers parse: with the checks
after the headers passed and no failure of the decoder or of the output
files, it is the frame loop on the payload packets of the stream. -/
theorem main_frames (env : Env) (hdrs payload : List ogg_packet) (hin : env.inGood = true)
    (hwf : WellFormed env.input.flatten)
    (hsplit : splitHeaders env.codec [] (streamPackets env.input.flatten) = some (hdrs, payload))
    (halloc : env.codec.th_decode_alloc hdrs = true)
    (hsub : subsampling (env.codec.pixel_fmt hdrs) ≠ none)
    (hpic : env.codec.pic_x hdrs = 0 ∧ env.codec.pic_y hdrs = 0)
    (hdec : ∀ hist p, 0 ≤ env.codec.th_decode_packetin hist p)
    (hfit : ∀ i, ¬ (env.snprintf i % 2 ^ 64).toNat ≥ env.outF_size)
    (hopen : ∀ i, env.outGood i = true) :
    ∃ st, main env = Run.ok st ∧
      st.trace = frameEvents 0 (payload.take (numFrames env)) ∧
      st.decoded = payload.take (numFrames env) ∧
      st.framesWritten = (payload.take (numFrames env)).length := by
  have hi0 : itemsAhead (st0 env) = env.input.flatten := by simp [itemsAhead, st0]
  have hstart : Start (st0 env) := ⟨rfl, by rw [hi0]; exact hwf⟩
  have hpa0 : packetsAhead (st0 env) = streamPackets env.input.flatten := by
    unfold packetsAhead
    rw [hi0]
    rfl
  have hlen : (streamPackets env.input.flatten).length ≤ packetBound (st0 env) + 1 := by
    have := streamPackets_length env.input.flatten
    have hb : packetBound (st0 env) = packetsOn env.input.flatten := by
      simp [packetBound, st0, queued]
    omega
  obtain ⟨st1, a1, a2, a3, a4, a5, a6, a7, a8, a9⟩ :=
    headerLoopN_feed env _ (packetBound (st0 env) + 1) (st0 env) hdrs payload
      (Or.inl hstart) hpa0 hsplit hlen
  obtain ⟨st, b1, b2, b3, b4⟩ := frameLoop_trace env (numFrames env) st1 a2 hdec hfit hopen
  rw [a5] at b2 b3 b4
  refine ⟨st, ?_, ?_, ?_, ?_⟩
  · unfold main
    rw [if_neg (by simp [hin]), a1]
    simp only
    rw [a4, if_neg a3, if_neg (by simp [halloc]), if_neg hsub,
      if_neg (by simp [hpic.1, hpic.2])]
    exact b1
  · rw [b2, a7, a8]
    simp [st0]
  · rw [b3, a6]
    simp [st0]
  · rw [b4, a8]
    simp [st0]

theorem numFrames_some (env : Env) (K : Nat) (hmax : env.maxframes = some (K : Int))
    (hK : K < 2 ^ 31) : numFrames env = K := by
  unfold numFrames
  rw [hmax]
  simp only
  have h1 : (K : Int) % 2 ^ 32 = (K : Int) := by
    apply Int.emod_eq_of_lt
    · exact Int.natCast_nonneg K
    · have : (K : Int) < 2 ^ 31 := by exact_mod_cast hK
      omega
  rw [h1]
  exact Int.toNat_natCast K

/-- C5: a run with the third argument `K` (`atoi` gives `K`, which `main`
stores in `numFrames`) on a well-formed input file: the file starts with the
beginning-of-stream page of the stream, `ogg_sync_pageout` finds pages only, and
the pages of the stream carry consecutive page sequence numbers.  The header
loop on the packets of the stream ends at a first payload packet
(`splitHeaders`), the checks after the headers pass, and the decoder and the
output files do not fail.  The stream carries more than `K` payload packets.
Then `main` ends normally, having decoded the first `K` payload packets and
written exactly `K` output files, with the indices 0 to `K - 1` in this
order. -/
theorem maxframes_bounds_output (env : Env) (K : Nat) (hdrs payload : List ogg_packet)
    (hin : env.inGood = true)
    (hmax : env.maxframes = some (K : Int)) (hK : K < 2 ^ 31)
    (hwf : WellFormed env.input.flatten)
    (hsplit : splitHeaders env.codec [] (streamPackets env.input.flatten) = some (hdrs, payload))
    (halloc : env.codec.th_decode_alloc hdrs = true)
    (hsub : subsampling (env.codec.pixel_fmt hdrs) ≠ none)
    (hpic : env.codec.pic_x hdrs = 0 ∧ env.codec.pic_y hdrs = 0)
    (hdec : ∀ hist p, 0 ≤ env.codec.th_decode_packetin hist p)
    (hfit : ∀ i, ¬ (env.snprintf i % 2 ^ 64).toNat ≥ env.outF_size)
    (hopen : ∀ i, env.outGood i = true)
    (hmore : K < payload.length) :
    ∃ st, main env = Run.ok st ∧ filesWritten st.trace = List.range K ∧
      st.framesWritten = K ∧ st.decoded = payload.take K := by
  obtain ⟨st, b1, b2, b3, b4⟩ :=
    main_frames env hdrs payload hin hwf hsplit halloc hsub hpic hdec hfit hopen
  rw [numFrames_some env K hmax hK] at b2 b3 b4
  have hlen : (payload.take K).length = K := by
    rw [List.length_take]
    omega
  refine ⟨st, b1, ?_, b4.trans hlen, b3⟩
  rw [b2, filesWritten_frameEvents, hlen, List.range_eq_range']

/-- C6: a run without the third argument on a well-formed input file (as in
C5: it starts with the beginning-of-stream page of the stream,
`ogg_sync_pageout` finds pages only, the pages of the stream carry consecutive
page sequence numbers), where the header loop on the packets of the stream
ends at a first payload packet, the checks after the headers pass, and the
decoder and the output files do not fail.  The stream carries the payload
packets `payload`, `N` in all, at most `UINT_MAX`.  Then `main` ends normally;
the packets handed to `th_decode_packetin` are exactly the payload packets,
each once and in stream order; after each one the output file of the next
index is written, and the run stops after the file of the last packet: `N`
files with the indices 0 to `N - 1`. -/
theorem every_frame_written_once (env : Env) (hdrs payload : List ogg_packet)
    (hin : env.inGood = true)
    (hmax : env.maxframes = none)
    (hwf : WellFormed env.input.flatten)
    (hsplit : splitHeaders env.codec [] (streamPackets env.input.flatten) = some (hdrs, payload))
    (halloc : env.codec.th_decode_alloc hdrs = true)
    (hsub : subsampling (env.codec.pixel_fmt hdrs) ≠ none)
    (hpic : env.codec.pic_x hdrs = 0 ∧ env.codec.pic_y hdrs = 0)
    (hdec : ∀ hist p, 0 ≤ env.codec.th_decode_packetin hist p)
    (hfit : ∀ i, ¬ (env.snprintf i % 2 ^ 64).toNat ≥ env.outF_size)
    (hopen : ∀ i, env.outGood i = true)
    (hN : payload.length ≤ UINT_MAX) :
    ∃ st, main env = Run.ok st ∧
      1 ≤ payload.length ∧
      st.decoded = payload ∧
      st.trace = frameEvents 0 payload ∧
      filesWritten st.trace = List.range payload.length ∧
      st.framesWritten = payload.length := by
  obtain ⟨st, b1, b2, b3, b4⟩ :=
    main_frames env hdrs payload hin hwf hsplit halloc hsub hpic hdec hfit hopen
  have hnum : numFrames env = UINT_MAX := by simp [numFrames, hmax]
  have htake : payload.take (numFrames env) = payload := by
    rw [hnum]
    exact List.take_of_length_le hN
  rw [htake] at b2 b3 b4
  refine ⟨st, b1, ?_, b3, b2, ?_, b4⟩
  · have hpos : ∀ (ps hist : List ogg_packet) (hd pl : List ogg_packet),
        splitHeaders env.codec hist ps = some (hd, pl) → 1 ≤ pl.length := by
      intro ps
      induction ps with
      | nil =>
        intro hist hd pl h
        simp [splitHeaders] at h
      | cons p rest ih =>
        intro hist hd pl h
        unfold splitHeaders at h
        split_ifs at h with h1 h2 h3
        · exact ih _ hd pl h
        · simp only [Option.some.injEq, Prod.mk.injEq] at h
          rw [← h.2]
          simp
        · exact ih _ hd pl h
    exact hpos _ _ hdrs payload hsplit
  · rw [b2, filesWritten_frameEvents, List.range_eq_range']

/-- The input `twoStreams` is well-formed. -/
theorem twoStreams_wellFormed : WellFormed twoStreams.flatten := by
  simp only [twoStreams, List.flatten, List.cons_append, List.nil_append, List.append_nil,
    WellFormed]
  decide

/-- Witness for C5: a file with two logical streams, three payload packets in
the first one, third argument 2. -/
theorem maxframes_bounds_output_witness :
    WellFormed (demoEnv (some 2) twoStreams).input.flatten ∧
    splitHeaders (demoEnv (some 2) twoStreams).codec []
        (streamPackets (demoEnv (some 2) twoStreams).input.flatten)
      = some ([⟨[100], false, 0⟩, ⟨[0], false, 0⟩],
              [⟨[0], false, 0⟩, ⟨[1], false, 0⟩, ⟨[2], false, 0⟩]) ∧
    ∃ st, main (demoEnv (some 2) twoStreams) = Run.ok st ∧
      filesWritten st.trace = List.range 2 ∧ st.framesWritten = 2 ∧
      st.decoded = [⟨[0], false, 0⟩, ⟨[1], false, 0⟩, ⟨[2], false, 0⟩].take 2 :=
  ⟨twoStreams_wellFormed, by decide,
    maxframes_bounds_output (demoEnv (some 2) twoStreams) 2
      [⟨[100], false, 0⟩, ⟨[0], false, 0⟩] _ rfl rfl (by decide)
      twoStreams_wellFormed (by decide) rfl (by decide) ⟨rfl, rfl⟩ (fun _ _ => le_refl _)
      (fun _ => (by decide : ¬ ((8 : Int) % 2 ^ 64).toNat ≥ 40)) (fun _ => rfl) (by decide)⟩

/-- Witness for C6: the same file, no third argument. -/
theorem every_frame_written_once_witness :
    WellFormed (demoEnv none twoStreams).input.flatten ∧
    ∃ st, main (demoEnv none twoStreams) = Run.ok st ∧
      1 ≤ [(⟨[0], false, 0⟩ : ogg_packet), ⟨[1], false, 0⟩, ⟨[2], false, 0⟩].length ∧
      st.decoded = [⟨[0], false, 0⟩, ⟨[1], false, 0⟩, ⟨[2], false, 0⟩] ∧
      st.trace = frameEvents 0 [⟨[0], false, 0⟩, ⟨[1], false, 0⟩, ⟨[2], false, 0⟩] ∧
      filesWritten st.trace
        = List.range [(⟨[0], false, 0⟩ : ogg_packet), ⟨[1], false, 0⟩, ⟨[2], false, 0⟩].length ∧
      st.framesWritten
        = [(⟨[0], false, 0⟩ : ogg_packet), ⟨[1], false, 0⟩, ⟨[2], false, 0⟩].length :=
  ⟨twoStreams_wellFormed,
    every_frame_written_once (demoEnv none twoStreams)
      [⟨[100], false, 0⟩, ⟨[0], false, 0⟩] _ rfl rfl
      twoStreams_wellFormed (by decide) rfl (by decide) ⟨rfl, rfl⟩ (fun _ _ => le_refl _)
      (fun _ => (by decide : ¬ ((8 : Int) % 2 ^ 64).toNat ≥ 40)) (fun _ => rfl) (by decide)⟩

/-- What happens when data of the stream is lost (page 1 of `lostPage` is
missing): `ogg_stream_packetout` returns -1 at the mark and leaves `op` as it
is, `getPacket` takes that for a packet, and the packet decoded before is
decoded and written once more.  The input is not well-formed. -/
theorem lost_page_decodes_stale_packet :
    ¬ WellFormed lostPage.flatten ∧
    ∃ st, main (demoEnv none lostPage) = Run.ok st ∧
      st.decoded = [⟨[0], false, 0⟩, ⟨[0], false, 0⟩, ⟨[2], false, 0⟩] ∧
      filesWritten st.trace = [0, 1, 2] := by
  refine ⟨?_, _, rfl, by decide, by decide⟩
  simp only [lostPage, List.flatten, List.cons_append, List.nil_append, List.append_nil,
    WellFormed]
  decide

theorem handlePage_size (st : State) :
    (∀ st', handlePage st = Fate.again st' →
      st'.oy = st.oy ∧ st'.input = st.input ∧
      queued st' ≤ queued st + st.og.packets.length + 1) ∧
    (∀ b st', handlePage st = Fate.leave (Run.ok (b, st')) →
      st'.oy = st.oy ∧ st'.input = st.input ∧
      queued st' ≤ queued st + st.og.packets.length + 1) ∧
    (∀ r, handlePage st ≠ Fate.leave (Run.nofuel r)) := by
  unfold handlePage submitPage ogg_page_bos ogg_page_serialno queued
  cases hos : st.os with
  | none =>
    by_cases hb : st.og.bos = true
    · simp [hb, ogg_stream_pagein, ogg_stream_init, hos]
    · by_cases hs : st.og.serialno = st.theoraStream
      · simp [hb, hs, ogg_stream_pagein, hos]
      · simp [hb, hs, hos]
  | some s =>
    by_cases hb : st.og.bos = true
    · simp [hb, hos]
      omega
    · by_cases hs : st.og.serialno = st.theoraStream
      · by_cases hq : st.theoraStream = s.serialno
        · simp [hb, hs, ogg_stream_pagein, hos, hq]
          split_ifs
          · simp
            omega
          · simp
        · simp [hb, hs, ogg_stream_pagein, hos, hq]
      · simp [hb, hs, hos]
        omega

theorem packetsOn_append (a b : List SyncItem) : packetsOn (a ++ b) = packetsOn a + packetsOn b := by
  simp [packetsOn]

/-- Function `getPage` does not run out of fuel; when it returns true it has
taken something from the input, and it never adds to the packets that can
still come. -/
theorem getPageN_size (n : Nat) (st : State) (hn : inputSize st < n) :
    (∀ r, getPageN n st ≠ Run.nofuel r) ∧
    (∀ b st', getPageN n st = Run.ok (b, st') →
      (b = true → inputSize st' < inputSize st) ∧ packetBound st' ≤ packetBound st) := by
  induction n generalizing st with
  | zero => omega
  | succ n ih =>
    unfold getPageN
    cases hoy : st.oy with
    | nil =>
      simp only [ogg_sync_pageout, le_refl, if_true, readFile]
      cases hin : st.input with
      | nil =>
        simp only [if_true]
        refine ⟨fun r h => (by cases h), ?_⟩
        intro b st' h
        cases h
        refine ⟨fun hb => (by cases hb), ?_⟩
        simp [packetBound, hoy, hin, queued]
      | cons chunk rest =>
        simp only [Bool.true_eq_false, if_false]
        have hsize : inputSize { st with oy := [] ++ chunk, input := rest } + 1 = inputSize st := by
          simp [inputSize, hoy, hin]
          omega
        have hpb : packetBound { st with oy := [] ++ chunk, input := rest } = packetBound st := by
          simp [packetBound, hoy, hin, queued]
        obtain ⟨a1, a2⟩ := ih { st with oy := [] ++ chunk, input := rest } (by omega)
        refine ⟨a1, ?_⟩
        intro b st' h
        obtain ⟨b1, b2⟩ := a2 b st' h
        exact ⟨fun hb => (by have := b1 hb; omega), by omega⟩
    | cons it0 rest =>
      cases it0 with
      | junk =>
        simp only [ogg_sync_pageout, readFile]
        rw [if_pos (by decide)]
        cases hin : st.input with
        | nil =>
          simp only [if_true]
          refine ⟨fun r h => (by cases h), ?_⟩
          intro b st' h
          cases h
          refine ⟨fun hb => (by cases hb), ?_⟩
          simp [packetBound, hoy, hin, queued, packetsOn]
        | cons chunk rest2 =>
          simp only [Bool.true_eq_false, if_false]
          have hsize : inputSize { st with oy := rest ++ chunk, input := rest2 } + 2
              = inputSize st := by
            simp [inputSize, hoy, hin]
            omega
          have hpb : packetBound { st with oy := rest ++ chunk, input := rest2 }
              = packetBound st := by
            simp [packetBound, hoy, hin, queued, packetsOn]
          obtain ⟨a1, a2⟩ := ih { st with oy := rest ++ chunk, input := rest2 } (by omega)
          refine ⟨a1, ?_⟩
          intro b st' h
          obtain ⟨b1, b2⟩ := a2 b st' h
          exact ⟨fun hb => (by have := b1 hb; omega), by omega⟩
      | page pg no =>
        simp only [ogg_sync_pageout]
        rw [if_neg (by decide), if_pos trivial]
        have hsize : inputSize { st with og := pg, og_pageno := no, oy := rest } + 1
            = inputSize st := by
          simp [inputSize, hoy]
          omega
        have hpb : packetBound { st with og := pg, og_pageno := no, oy := rest }
            + (pg.packets.length + 1) = packetBound st := by
          simp [packetBound, hoy, queued, packetsOn]
          omega
        obtain ⟨p1, p2, p3⟩ := handlePage_size { st with og := pg, og_pageno := no, oy := rest }
        have hsame : ∀ st2 : State, st2.oy = rest → st2.input = st.input →
            queued st2 ≤ queued { st with og := pg, og_pageno := no, oy := rest }
              + pg.packets.length + 1 →
            inputSize st2 + 1 = inputSize st ∧ packetBound st2 ≤ packetBound st := by
          intro st2 e1 e2 e3
          constructor
          · rw [← hsize]
            simp [inputSize, e1, e2]
          · rw [← hpb]
            simp only [packetBound, e1, e2]
            omega
        cases hh : handlePage { st with og := pg, og_pageno := no, oy := rest } with
        | again s =>
          simp only
          obtain ⟨q1, q2, q3⟩ := p1 s hh
          obtain ⟨z1, z2⟩ := hsame s q1 q2 q3
          obtain ⟨a1, a2⟩ := ih s (by omega)
          refine ⟨a1, ?_⟩
          intro b st' h
          obtain ⟨b1, b2⟩ := a2 b st' h
          exact ⟨fun hb => (by have := b1 hb; omega), by omega⟩
        | leave r =>
          simp only
          refine ⟨fun r2 h => p3 r2 (by rw [hh, h]), ?_⟩
          intro b st' h
          subst h
          obtain ⟨q1, q2, q3⟩ := p2 b st' hh
          obtain ⟨z1, z2⟩ := hsame st' q1 q2 q3
          exact ⟨fun _ => (by omega), z2⟩

/-- Function `getPacket` does not run out of fuel, and a packet it hands out is
one packet less that can still come. -/
theorem getPacketN_size (n : Nat) (st : State) (hn : inputSize st + 1 < n) :
    (∀ r, getPacketN n st ≠ Run.nofuel r) ∧
    (∀ st', getPacketN n st = Run.ok (true, st') → packetBound st' < packetBound st) := by
  induction n generalizing st with
  | zero => omega
  | succ n ih =>
    unfold getPacketN
    have viaPage : ∀ st2 : State, inputSize st2 = inputSize st → packetBound st2 = packetBound st →
        (∀ r, (match getPage st2 with
               | Run.ok (false, st) => Run.ok (false, st)
               | Run.ok (true, st) => getPacketN n st
               | e => e) ≠ Run.nofuel r) ∧
        (∀ st', (match getPage st2 with
                 | Run.ok (false, st) => Run.ok (false, st)
                 | Run.ok (true, st) => getPacketN n st
                 | e => e) = Run.ok (true, st') → packetBound st' < packetBound st) := by
      intro st2 e1 e2
      obtain ⟨a1, a2⟩ := getPageN_size (inputSize st2 + 1) st2 (Nat.lt_succ_self _)
      unfold getPage
      split
      · exact ⟨fun r h => (by cases h), fun st' h => (by cases h)⟩
      · rename_i s hs
        obtain ⟨b1, b2⟩ := a2 true s hs
        have := b1 rfl
        obtain ⟨c1, c2⟩ := ih s (by omega)
        exact ⟨c1, fun st' h => (by have := c2 st' h; omega)⟩
      · rename_i e he1 he2
        refine ⟨fun r h => a1 r h, fun st' h => ?_⟩
        exact absurd h (he2 st')
    cases hos : st.os with
    | none =>
      simp only [if_true]
      exact viaPage st rfl rfl
    | some s =>
      simp only
      cases hq : s.queue with
      | cons q qs =>
        cases q with
        | none =>
          simp only [ogg_stream_packetout, hq]
          rw [if_neg (by decide)]
          refine ⟨fun r h => (by cases h), ?_⟩
          intro st' h
          cases h
          simp [packetBound, queued, hos, hq]
        | some q =>
          simp only [ogg_stream_packetout, hq]
          rw [if_neg (by decide)]
          refine ⟨fun r h => (by cases h), ?_⟩
          intro st' h
          cases h
          simp [packetBound, queued, hos, hq]
      | nil =>
        simp only [ogg_stream_packetout, hq, if_true]
        have hst : ({ st with op := st.op, os := some s } : State) = st := by
          cases st
          simp only at hos
          simp [hos]
        rw [hst]
        exact viaPage st rfl rfl

/-- The header loop does not run out of fuel. -/
theorem headerLoopN_fuel (env : Env) (n : Nat) (st s : State) (hn : packetBound st < n) :
    headerLoopN env n st ≠ Run.nofuel s := by
  induction n generalizing st with
  | zero => omega
  | succ n ih =>
    obtain ⟨a1, a2⟩ := getPacketN_size (inputSize st + 2) st (by omega)
    unfold headerLoopN
    unfold getPacket
    split
    · exact fun h => Run.noConfusion h
    · rename_i s1 hs
      have hlt := a2 s1 hs
      have step : ∀ st2 : State, packetBound st2 = packetBound s1 →
          headerLoopN env n st2 ≠ Run.nofuel s := fun st2 e => ih st2 (by omega)
      simp only
      split_ifs
      · exact step _ rfl
      · exact fun h => Run.noConfusion h
      · exact fun h => Run.noConfusion h
      · exact step _ rfl
      · exact step _ rfl
    · exact fun h => Run.noConfusion h
    · rename_i r2 s2 hs
      exact absurd hs (a1 _)

/-- The frame loop does not run out of fuel. -/
theorem frameLoop_fuel (env : Env) (n : Nat) (st s : State) :
    frameLoop env n st ≠ Run.nofuel s := by
  induction n generalizing st with
  | zero => exact fun h => Run.noConfusion h
  | succ n ih =>
    unfold frameLoop
    split
    · split_ifs
      · exact fun h => Run.noConfusion h
      · exact fun h => Run.noConfusion h
      · exact fun h => Run.noConfusion h
      · exact ih _
    · exact fun h => Run.noConfusion h
    · rename_i r2 s2 hs
      exfalso
      unfold getNextFrame at hs
      simp only at hs
      split_ifs at hs
      all_goals
        split at hs
        · cases hs
        · cases hs
        · rename_i e he1 he2
          unfold getPacket at hs
          exact (getPacketN_size _ _ (by omega)).1 _ hs

/-- Function `main` of theora2jpeg never runs out of fuel: the bounds of the
loops of the model are large enough, every run ends by returning or by an
exception. -/
theorem decoder_never_out_of_fuel (env : Env) (s : State) : main env ≠ Run.nofuel s := by
  unfold main
  split_ifs
  · exact fun h => Run.noConfusion h
  · split
    · split_ifs
      · exact fun h => Run.noConfusion h
      · exact fun h => Run.noConfusion h
      · exact fun h => Run.noConfusion h
      · exact fun h => Run.noConfusion h
      · exact frameLoop_fuel env _ _ s
    · rename_i r hr
      intro h
      rw [h] at hr
      exact headerLoopN_fuel env _ (st0 env) s (Nat.lt_succ_self _) h

/-- With no stream state, a page that is not a beginning-of-stream page and
whose serial number is the value of `theoraStream` is passed to
`ogg_stream_pagein` with the null `os`, and the assertion fails. -/
theorem handlePage_null_os (st : State) (hos : st.os = none) (hb : st.og.bos = false)
    (hs : st.og.serialno = st.theoraStream) :
    handlePage st = Fate.leave (Run.thrown "Assertion `rv != -1' failed."
      (false, { st with os := none, log := st.log ++ [(st.og, true)] })) := by
  simp [handlePage, submitPage, ogg_page_bos, ogg_page_serialno, ogg_stream_pagein, hos, hb, hs]

/-- With no stream state, every other page is handled without reaching the
assertion: a beginning-of-stream page creates the stream state first, a page
of another serial number is discarded. -/
theorem handlePage_null_os_safe (st : State) (hos : st.os = none)
    (h : st.og.bos = true ∨ st.og.serialno ≠ st.theoraStream) (what : String)
    (r : Bool × State) : handlePage st ≠ Fate.leave (Run.thrown what r) := by
  unfold handlePage submitPage ogg_page_bos ogg_page_serialno
  by_cases hb : st.og.bos = true
  · simp [hb, hos, ogg_stream_pagein, ogg_stream_init]
  · rcases h with h | h
    · exact absurd h hb
    · simp [hb, h]

/-- C11, evaluated on an input whose first page is not a beginning-of-stream
page and has the serial number -1: `theoraStream` is still -1 and `os` is
still null, the comparison at line 276 lets the page through, and `getPage`
passes it to `ogg_stream_pagein` with the null `os`; the call returns -1 and
the assertion fails.  The run of `main` ends there. -/
theorem pagein_without_stream_state :
    (st0 (demoEnv none minusOneFirst)).os = none ∧
    ∃ st, getPage (st0 (demoEnv none minusOneFirst))
        = Run.thrown "Assertion `rv != -1' failed." (false, st) ∧
      st.os = none ∧
      st.log = [(⟨-1, false, [⟨[9], false, 0⟩]⟩, true)] ∧
      main (demoEnv none minusOneFirst) = Run.thrown "Assertion `rv != -1' failed." st :=
  ⟨rfl, _, rfl, rfl, by decide, rfl⟩

end theora2jpeg
